import Mathlib

/-!
# Long-polling server: bounded history, filter and wake-up hub

A shallow embedding of `cmd/server/main.go`.

* Go slices are modelled by their backing array (from the slice's first
  element on) together with their length, so that `len`, `cap`, re-slicing,
  `append` and `copy` behave as the Go specification says.
* A run-time panic (slice bounds out of range, negative `make` size, send on
  or close of a closed channel) and a send that can never complete are
  explicit results, not exceptions.
* Locks are not modelled: every operation is taken as one atomic step.
-/

namespace LongPolling

/-! ## Go slices -/

/-- The part of the Go runtime the program depends on but does not fix: the
capacity `append` chooses when it has to reallocate.  The Go specification
only promises that the new array is large enough. -/
structure GoRuntime where
  growCap : Nat → Nat → Nat
  growCap_ge : ∀ oldCap newLen, newLen ≤ growCap oldCap newLen

/-- The runtime that always allocates exactly what is needed. -/
def exactRuntime : GoRuntime := ⟨fun _ n => n, fun _ _ => Nat.le_refl _⟩

/-- A Go slice: `arr` is the backing array from the slice's first element to
the end of the allocation (so `cap = arr.length`), `len` the slice length. -/
structure Slice (T : Type) where
  arr : List T
  len : Nat
deriving DecidableEq, Repr

variable {T : Type}

/-- Go `cap(s)`. -/
def Slice.cap (s : Slice T) : Nat := s.arr.length

/-- The elements `s[0], ..., s[len(s)-1]`. -/
def Slice.elems (s : Slice T) : List T := s.arr.take s.len

/-- Go `make([]T, len, cap)` for `0 ≤ len ≤ cap`: a zeroed array. -/
def make [Inhabited T] (len cap : Nat) : Slice T := ⟨List.replicate cap default, len⟩

/-- Go slice literal `[]T{item}`. -/
def Slice.lit1 (item : T) : Slice T := ⟨[item], 1⟩

/-- Go `s[:hi]`; for a slice the upper bound is `cap(s)`.  `none` is the
run-time panic "slice bounds out of range". -/
def Slice.sliceTo (s : Slice T) (hi : Int) : Option (Slice T) :=
  if 0 ≤ hi ∧ hi ≤ (s.cap : Int) then some ⟨s.arr, hi.toNat⟩ else none

/-- Go `append(s, xs...)`: in place when the capacity suffices, otherwise into
a fresh array whose capacity the runtime chooses. -/
def goAppend [Inhabited T] (rt : GoRuntime) (s : Slice T) (xs : List T) : Slice T :=
  let n := s.len + xs.length
  if n ≤ s.cap then ⟨s.elems ++ xs ++ s.arr.drop n, n⟩
  else ⟨s.elems ++ xs ++ List.replicate (rt.growCap s.cap n - n) default, n⟩

/-- Go `copy(dst, src)`: overwrites the first `min(len(dst), len(src))`
elements of `dst`. -/
def goCopy (dst src : Slice T) : Slice T :=
  let n := min dst.len src.len
  ⟨src.elems.take n ++ dst.arr.drop n, dst.len⟩

/-! ## Config and Filter -/

/-- One stored update (`type Config struct`). -/
structure Config where
  LastUpdated : Int
  Content : String
deriving DecidableEq, Repr

/-- The Go zero value of `Config`. -/
instance : Inhabited Config := ⟨⟨0, ""⟩⟩

/-- Function `Filter`: the loop `for _, d := range data { if f(d) { ret = append(ret, d) } }`. -/
def Filter (data : List T) (f : T → Bool) : List T :=
  data.foldl (fun ret d => if f d then ret ++ [d] else ret) []

/-! ## CappedQueue -/

/-- Type `CappedQueue[T any]` without its lock. -/
structure CappedQueue (T : Type) where
  items : Slice T
  capacity : Int
deriving DecidableEq, Repr

/-- Function `NewCappedQueue(capacity)`; `make` panics on a negative capacity. -/
def NewCappedQueue [Inhabited T] (capacity : Int) : Option (CappedQueue T) :=
  if capacity < 0 then none
  else some { items := make 0 capacity.toNat, capacity := capacity }

/-- Method `(q *CappedQueue[T]) Append(item)`; `none` is the panic of `q.items[:to]`. -/
def CappedQueue.Append [Inhabited T] (rt : GoRuntime) (q : CappedQueue T) (item : T) :
    Option (CappedQueue T) :=
  let l := q.items.len
  if l = 0 then
    some { q with items := goAppend rt q.items [item] }
  else
    let to' : Int := if (l : Int) < q.capacity then (l : Int) else q.capacity - 1
    match q.items.sliceTo to' with
    | none => none
    | some tail => some { q with items := goAppend rt (Slice.lit1 item) tail.elems }

/-- Method `(q *CappedQueue[T]) Copy()`: `make([]T, cap(q.items))` followed by
`copy(copied, q.items)`; the result is given as the list of its elements. -/
def CappedQueue.Copy [Inhabited T] (q : CappedQueue T) : List T :=
  (goCopy (make q.items.cap q.items.cap) q.items).elems

/-- A sequence of `Append` calls, first element of the list first. -/
def CappedQueue.appendAll [Inhabited T] (rt : GoRuntime) :
    CappedQueue T → List T → Option (CappedQueue T)
  | q, [] => some q
  | q, x :: xs => (q.Append rt x).bind (fun q1 => q1.appendAll rt xs)

/-- The closure `getUpdates` of the `/updates` handler. -/
def getUpdates (q : CappedQueue Config) (lastUpdated : Int) : List Config :=
  Filter q.Copy (fun c => decide (c.LastUpdated > lastUpdated))

/-- The queue holds the newest `C` elements of the appended sequence `acc`,
newest first, in a well-formed slice. -/
def QInv (C : Int) (acc : List T) (q : CappedQueue T) : Prop :=
  q.capacity = C ∧ q.items.len ≤ q.items.cap ∧ q.items.elems = acc.reverse.take C.toNat

/-! ## Channels -/

/-- How an operation ends: it returns, it panics, or it is left waiting on a
channel operation that cannot proceed. -/
inductive Status where
  | done
  | panicked
  | blocked
deriving DecidableEq, Repr

/-- A channel made by `make(chan struct{}, 1)`: the number of buffered values
and whether it has been closed. -/
structure Chan where
  buf : Nat
  closed : Bool
deriving DecidableEq, Repr

/-- Buffer size of every signal channel (`make(chan struct{}, 1)`). -/
def chanCap : Nat := 1

/-- All channels made so far; a channel value is its index. -/
abbrev Heap := List Chan

/-- Go `c <- struct{}{}`: panics on a closed channel, waits on a full buffer
(no receiver is part of the step) and on a nil channel. -/
def chanSend (h : Heap) (c : Nat) : Status × Heap :=
  match h[c]? with
  | none => (.blocked, h)
  | some ch =>
    if ch.closed then (.panicked, h)
    else if ch.buf < chanCap then (.done, h.set c { ch with buf := ch.buf + 1 })
    else (.blocked, h)

/-- Go `close(c)`: panics on a closed or nil channel. -/
def chanClose (h : Heap) (c : Nat) : Status × Heap :=
  match h[c]? with
  | none => (.panicked, h)
  | some ch =>
    if ch.closed then (.panicked, h)
    else (.done, h.set c { ch with closed := true })

/-- Go `<-c`: takes a buffered value, returns at once on a closed empty
channel, waits otherwise. -/
def chanRecv (h : Heap) (c : Nat) : Status × Heap :=
  match h[c]? with
  | none => (.blocked, h)
  | some ch =>
    if 0 < ch.buf then (.done, h.set c { ch with buf := ch.buf - 1 })
    else if ch.closed then (.done, h)
    else (.blocked, h)

/-! ## PubSub -/

/-- Type `PubSub` without its lock: the registered channels in order. -/
structure PubSub where
  channels : List Nat
deriving DecidableEq, Repr

/-- Function `NewPubSub()`. -/
def NewPubSub : PubSub := ⟨[]⟩

/-- Method `(p *PubSub) subscribe()`: makes a channel and registers it.  The returned
channel is the first component; the returned function is `PubSub.unsubscribe`
at that channel. -/
def PubSub.subscribe (h : Heap) (p : PubSub) : Nat × Heap × PubSub :=
  let c := h.length
  (c, h ++ [⟨0, false⟩], ⟨p.channels ++ [c]⟩)

/-- The search `for i, ch := range p.channels { if ch == c { ... return } }`:
the first index holding `c`, counted from `i`. -/
def findChan (c : Nat) : List Nat → Nat → Option Nat
  | [], _ => none
  | ch :: rest, i => if ch = c then some i else findChan c rest (i + 1)

/-- The function returned by `subscribe` for channel `c`: removes the first
entry equal to `c` and closes `c`; does nothing when `c` is not registered. -/
def PubSub.unsubscribe (c : Nat) (h : Heap) (p : PubSub) : Status × Heap × PubSub :=
  match findChan c p.channels 0 with
  | none => (.done, h, p)
  | some i =>
    let p1 : PubSub := ⟨p.channels.take i ++ p.channels.drop (i + 1)⟩
    let r := chanClose h c
    (r.1, r.2, p1)

/-- The loop `for _, channel := range p.channels { channel <- struct{}{} }`,
stopping at the first send that does not complete. -/
def sendAll : Heap → List Nat → Status × Heap
  | h, [] => (.done, h)
  | h, c :: cs =>
    match chanSend h c with
    | (.done, h1) => sendAll h1 cs
    | r => r

/-- Method `(p *PubSub) publish()`. -/
def PubSub.publish (h : Heap) (p : PubSub) : Status × Heap :=
  sendAll h p.channels

/-! ## Hub -/

/-- Type `Hub` without its lock, together with the channels made so
far.  The Go map is an association list read with `List.lookup`. -/
structure Hub where
  heap : Heap
  pubSubs : List (String × PubSub)
deriving DecidableEq, Repr

/-- Function `NewHub()`. -/
def NewHub : Hub := ⟨[], []⟩

/-- Writes through the pointer stored under `key`: replaces the entry that
`List.lookup` finds. -/
def setEntry (key : String) (p : PubSub) :
    List (String × PubSub) → List (String × PubSub)
  | [] => []
  | kv :: m => if kv.1 = key then (key, p) :: m else kv :: setEntry key p m

/-- The channels registered under `key` (none when the map has no entry). -/
def Hub.registered (s : Hub) (key : String) : List Nat :=
  match s.pubSubs.lookup key with
  | some p => p.channels
  | none => []

/-- Method `(h *Hub) Subscribe(key)`: get-or-create the key's `PubSub`, then
`subscribe` on it.  Taken as one step, the second map read under the write
lock sees what the first one saw. -/
def Hub.Subscribe (s : Hub) (key : String) : Nat × Hub :=
  match s.pubSubs.lookup key with
  | some v =>
    let r := v.subscribe s.heap
    (r.1, ⟨r.2.1, setEntry key r.2.2 s.pubSubs⟩)
  | none =>
    let r := NewPubSub.subscribe s.heap
    (r.1, ⟨r.2.1, (key, r.2.2) :: s.pubSubs⟩)

/-- The function returned by `Hub.Subscribe(key)` for channel `c`. -/
def Hub.unsubscribe (s : Hub) (key : String) (c : Nat) : Status × Hub :=
  match s.pubSubs.lookup key with
  | none => (.done, s)
  | some p =>
    let r := p.unsubscribe c s.heap
    (r.1, ⟨r.2.1, setEntry key r.2.2 s.pubSubs⟩)

/-- Method `(h *Hub) Publish(key)`. -/
def Hub.Publish (s : Hub) (key : String) : Status × Hub :=
  match s.pubSubs.lookup key with
  | some v =>
    let r := v.publish s.heap
    (r.1, { s with heap := r.2 })
  | none => (.done, s)

/-- A reader's `<-ch`. -/
def Hub.recv (s : Hub) (c : Nat) : Status × Hub :=
  let r := chanRecv s.heap c
  (r.1, { s with heap := r.2 })

/-- The calls a client of the hub can make. -/
inductive Action where
  | subscribe (key : String)
  | unsubscribe (key : String) (c : Nat)
  | publish (key : String)
  | recv (c : Nat)
deriving DecidableEq, Repr

/-- One call. -/
def Hub.step (s : Hub) : Action → Status × Hub
  | .subscribe key => (.done, (s.Subscribe key).2)
  | .unsubscribe key c => s.unsubscribe key c
  | .publish key => s.Publish key
  | .recv c => s.recv c

/-- A sequence of calls, each started after the previous one returned; it
stops at the first call that does not return. -/
def Hub.run : Hub → List Action → Status × Hub
  | s, [] => (.done, s)
  | s, a :: as =>
    match s.step a with
    | (.done, s1) => s1.run as
    | r => r

/-- States the hub can be in between calls. -/
def Hub.Reachable (s : Hub) : Prop := ∃ acts, NewHub.run acts = (.done, s)

/-- The buffered notifications of channel `c`. -/
def Hub.pending (s : Hub) (c : Nat) : Option Nat := (s.heap[c]?).map Chan.buf



/-- Registered channels are open channels of the heap, no channel is
registered twice, and no channel is registered under two keys. -/
def Hub.WF (s : Hub) : Prop :=
  (∀ k c, c ∈ s.registered k → ∃ ch, s.heap[c]? = some ch ∧ ch.closed = false) ∧
  (∀ k, (s.registered k).Nodup) ∧
  (∀ k1 k2 c, c ∈ s.registered k1 → c ∈ s.registered k2 → k1 = k2)

/-- A state used to instantiate the hub theorems: two readers waiting on key
`a`, one on key `b`, and one publish on `b`. -/
def demoHub : Hub :=
  (NewHub.run [.subscribe "a", .subscribe "a", .subscribe "b", .publish "b"]).2

/-- The slice bound `to` that `Append` computes when the queue is not empty:
`to := q.capacity - 1; if l < q.capacity { to = l }`. -/
def CappedQueue.appendTo (q : CappedQueue T) : Int :=
  if (q.items.len : Int) < q.capacity then (q.items.len : Int) else q.capacity - 1

/-! ## Store -/

/-- Type `Store[T any]`: the queues stored so far (a `*CappedQueue[T]` is an
index into `cells`) and the `sync.Map` from keys to those pointers. -/
structure Store (T : Type) where
  cells : List (CappedQueue T)
  m : List (String × Nat)
deriving DecidableEq, Repr

/-- The value `&Store[Config]{}`. -/
def NewStore : Store T := ⟨[], []⟩

/-- Method `(s *Store[T]) GetQueue(key)`: `LoadOrStore(key, NewCappedQueue[T](32))`.
The queue built for the call is stored only when the key is absent; the
result is the pointer now held under `key`. -/
def Store.GetQueue [Inhabited T] (s : Store T) (key : String) : Option (Nat × Store T) :=
  match NewCappedQueue 32 with
  | none => none
  | some fresh =>
    match s.m.lookup key with
    | some p => some (p, s)
    | none => some (s.cells.length, ⟨s.cells ++ [fresh], (key, s.cells.length) :: s.m⟩)

/-- The queue a pointer refers to. -/
def Store.deref (s : Store T) (p : Nat) : Option (CappedQueue T) := s.cells[p]?

/-- The call `q.Append(item)` through the pointer `p`; `none` is a panic. -/
def Store.Append [Inhabited T] (rt : GoRuntime) (s : Store T) (p : Nat) (item : T) :
    Option (Store T) :=
  match s.cells[p]? with
  | none => none
  | some q =>
    match q.Append rt item with
    | none => none
    | some q1 => some { s with cells := s.cells.set p q1 }

/-- The calls made on the store: `GetQueue(key)` alone, and `GetQueue(key)`
followed by `Append(item)` on the returned queue. -/
inductive StoreAction (T : Type) where
  | get (key : String)
  | append (key : String) (item : T)

/-- One call on the store. -/
def Store.step [Inhabited T] (rt : GoRuntime) (s : Store T) : StoreAction T → Option (Store T)
  | .get key => (s.GetQueue key).map (fun r => r.2)
  | .append key item =>
    match s.GetQueue key with
    | none => none
    | some (p, s1) => s1.Append rt p item

/-- A sequence of calls on the store. -/
def Store.run [Inhabited T] (rt : GoRuntime) : Store T → List (StoreAction T) → Option (Store T)
  | s, [] => some s
  | s, a :: as =>
    match s.step rt a with
    | none => none
    | some s1 => s1.run rt as

/-- States the store can be in between calls. -/
def Store.Reachable [Inhabited T] (s : Store T) : Prop :=
  ∃ (rt : GoRuntime) (acts : List (StoreAction T)), NewStore.run rt acts = some s

/-- Stored pointers refer to stored queues, distinct keys hold distinct
pointers, and every stored queue has capacity 32 and holds the newest 32 of
the items appended to it. -/
def Store.WF (s : Store T) : Prop :=
  (∀ k p, s.m.lookup k = some p → ∃ q acc, s.cells[p]? = some q ∧ QInv 32 acc q) ∧
  (∀ k1 k2 p, s.m.lookup k1 = some p → s.m.lookup k2 = some p → k1 = k2)

/-! ## strconv -/

/-- The two kinds of `strconv.NumError` (`ErrSyntax`, `ErrRange`). -/
inductive NumError where
  | badSyntax
  | outOfRange
deriving DecidableEq, Repr

/-- The largest `uint64`. -/
def maxUint64 : Nat := 2 ^ 64 - 1

/-- The digit loop of `strconv.ParseUint(s, 10, 64)`, with `n` the value read
so far: a byte that is not a decimal digit ends it with value 0 and a syntax
error; an overflow ends it at once with the largest value and a range error. -/
def parseUintLoop : List Char → Nat → Nat × Option NumError
  | [], n => (n, none)
  | c :: cs, n =>
    if '0' ≤ c ∧ c ≤ '9' then
      if n ≥ maxUint64 / 10 + 1 then (maxUint64, some .outOfRange)
      else
        let n1 := n * 10 + (c.toNat - '0'.toNat)
        if n1 > maxUint64 then (maxUint64, some .outOfRange)
        else parseUintLoop cs n1
    else (0, some .badSyntax)

/-- Go `strconv.ParseUint(s, 10, 64)` on the bytes of `s`. -/
def ParseUint (s : List Char) : Nat × Option NumError :=
  if s = [] then (0, some .badSyntax) else parseUintLoop s 0

/-- Go `strconv.ParseInt(s, 10, 64)`: an optional sign and decimal digits.  On
a syntax error the value is 0; on a range error the value is the nearest
`int64` (`2^63 - 1` or `-2^63`). -/
def ParseInt (s : String) : Int × Option NumError :=
  match s.toList with
  | [] => (0, some .badSyntax)
  | c :: cs =>
    let digits := if c = '+' ∨ c = '-' then cs else c :: cs
    match ParseUint digits with
    | (_, some .badSyntax) => (0, some .badSyntax)
    | (un, _) =>
      if c ≠ '-' ∧ un ≥ 2 ^ 63 then (2 ^ 63 - 1, some .outOfRange)
      else if c = '-' ∧ un > 2 ^ 63 then (-(2 ^ 63), some .outOfRange)
      else (if c = '-' then -(un : Int) else (un : Int), none)

/-- Go `strconv.Atoi(s)` where `int` has 64 bits: the value and error of
`ParseInt(s, 10, 0)` (its fast path for short strings gives the same). -/
def Atoi (s : String) : Int × Option NumError := ParseInt s

/-- Two's-complement wrap-around of an `int64` result. -/
def wrapInt64 (x : Int) : Int := (x + 2 ^ 63) % 2 ^ 64 - 2 ^ 63

/-- The cursor of the `/updates` handler:
`lastUpdated, _ := strconv.ParseInt(version, 10, 64)`; an absent parameter is
the empty string. -/
def parseVersion (version : String) : Int := (ParseInt version).1

/-- The seconds of the `/updates` handler:
`watchSecond, _ := strconv.Atoi(w); if watchSecond <= 0 { watchSecond = 10 }`. -/
def watchSeconds (w : String) : Int :=
  let watchSecond := (Atoi w).1
  if watchSecond ≤ 0 then 10 else watchSecond

/-- The duration passed to `time.After`, in nanoseconds:
`time.Duration(watchSecond) * time.Second` in `int64` arithmetic. -/
def watchDuration (w : String) : Int := wrapInt64 (watchSeconds w * 1000000000)

/-! ## Handlers -/

/-- The two values `main` shares between its handlers. -/
structure Server where
  store : Store Config
  hub : Hub
deriving DecidableEq, Repr

/-- The state `main` starts serving with. -/
def NewServer : Server := ⟨NewStore, NewHub⟩

/-- The content `fmt.Sprintf("new config is now available:%d", now)`. -/
def sendContent (now : Int) : String := "new config is now available:" ++ toString now

/-- The `/send` handler up to and including `q.Append`, with `now` the reading
of `time.Now().UnixMilli()`; returns the queue pointer as well. -/
def sendStore (rt : GoRuntime) (st : Store Config) (key : String) (now : Int) :
    Option (Nat × Store Config) :=
  match st.GetQueue key with
  | none => none
  | some (q, st1) =>
    match st1.Append rt q ⟨now, sendContent now⟩ with
    | none => none
    | some st2 => some (q, st2)

/-- The `/send` handler: `GetQueue`, `Append`, then `h.Publish(key)`. -/
def sendHandler (rt : GoRuntime) (sv : Server) (key : String) (now : Int) : Status × Server :=
  match sendStore rt sv.store key now with
  | none => (.panicked, sv)
  | some (_, st) =>
    let r := sv.hub.Publish key
    (r.1, ⟨st, r.2⟩)

/-- A sequence of `/send` calls on one key, as far as the store is concerned. -/
def sendStoreAll (rt : GoRuntime) (key : String) : Store Config → List Int → Option (Store Config)
  | st, [] => some st
  | st, now :: nows =>
    match sendStore rt st key now with
    | none => none
    | some (_, st1) => sendStoreAll rt key st1 nows

/-- The history stored under `key`, newest first (empty when there is none). -/
def Store.history (st : Store Config) (key : String) : List Config :=
  match st.m.lookup key with
  | none => []
  | some p =>
    match st.cells[p]? with
    | none => []
    | some q => q.items.elems

/-- The closure `getUpdates` on the queue behind pointer `q`; `none` is a nil
dereference. -/
def Store.getUpdates (st : Store Config) (q : Nat) (lastUpdated : Int) : Option (List Config) :=
  (st.cells[q]?).map (fun qq => LongPolling.getUpdates qq lastUpdated)

/-- What a handler wrote as the response body. -/
inductive Body where
  | empty
  | json (ret : List Config)
  | text (msg : String)
deriving DecidableEq, Repr

/-- The status code and body of a response. -/
structure Response where
  status : Nat
  body : Body
deriving DecidableEq, Repr

/-- The block `if err := json.NewEncoder(writer).Encode(ret); err != nil { http.Error(...500) }`,
with `encodeErr` telling whether `Encode` returned an error. -/
def respondJSON (ret : List Config) (encodeErr : Bool) : Response :=
  if encodeErr then ⟨500, .text "internal server err"⟩ else ⟨200, .json ret⟩

/-- Which case of the handler's `select` is taken. -/
inductive WaitEvent where
  | signal
  | timeout
  | cancelled
deriving DecidableEq, Repr

/-- How the `/updates` handler stands when it reaches its `select`: it has
already responded, or it waits with queue `q`, cursor `lastUpdated`, a timer of
`timeout` nanoseconds and the subscribed channel `ch`. -/
inductive Checked where
  | responded (r : Response)
  | waiting (q : Nat) (lastUpdated : Int) (timeout : Int) (ch : Nat)
deriving DecidableEq, Repr

/-- The `/updates` handler up to its `select`: `GetQueue`, the cursor, the
first `getUpdates`, and either the response or `h.Subscribe(key)`. -/
def updatesCheck (sv : Server) (key version watch : String) (encodeErr : Bool) :
    Option (Checked × Server) :=
  match sv.store.GetQueue key with
  | none => none
  | some (q, st) =>
    let lastUpdated := parseVersion version
    match st.getUpdates q lastUpdated with
    | none => none
    | some ret =>
      if ret.length > 0 then
        some (.responded (respondJSON ret encodeErr), ⟨st, sv.hub⟩)
      else
        let r := sv.hub.Subscribe key
        some (.waiting q lastUpdated (watchDuration watch) r.1, ⟨st, r.2⟩)

/-- The rest of the `/updates` handler: the case of the `select` that `ev`
names, then the deferred `c()`.  The signal case needs a value on `ch`; while
there is none the handler keeps waiting (`blocked`). -/
def updatesSelect (sv : Server) (key : String) (q : Nat) (lastUpdated : Int) (ch : Nat)
    (ev : WaitEvent) (encodeErr : Bool) : Status × Option Response × Server :=
  match ev with
  | .signal =>
    match sv.hub.recv ch with
    | (.done, hub1) =>
      match sv.store.getUpdates q lastUpdated with
      | none => (.panicked, none, ⟨sv.store, (hub1.unsubscribe key ch).2⟩)
      | some ret =>
        let resp : Response :=
          if ret.length = 0 then ⟨204, .empty⟩ else respondJSON ret encodeErr
        let r := hub1.unsubscribe key ch
        (r.1, some resp, ⟨sv.store, r.2⟩)
    | (st, hub1) => (st, none, ⟨sv.store, hub1⟩)
  | .timeout =>
    let r := sv.hub.unsubscribe key ch
    (r.1, some ⟨204, .empty⟩, ⟨sv.store, r.2⟩)
  | .cancelled =>
    let r := sv.hub.unsubscribe key ch
    (r.1, some ⟨408, .text "timeout"⟩, ⟨sv.store, r.2⟩)

/-- The effect of a sequence of calls on the hub when calls that do not
return leave what they had done so far. -/
def Hub.exec : Hub → List Action → Hub
  | s, [] => s
  | s, a :: as => Hub.exec (s.step a).2 as

/-- Calls that only notify or receive. -/
def Action.notifies : Action → Bool
  | .publish _ => true
  | .recv _ => true
  | _ => false

/-- A hub state whose entry for key `k` exists and has no registration left. -/
def idleHub : Hub := (NewHub.run [.subscribe "k", .unsubscribe "k" 0]).2

/-- A store used to instantiate the store theorems: one update under key `a`
and an empty history under key `b`. -/
def demoStore : Store Config :=
  ⟨[⟨goAppend exactRuntime (make 0 32) [⟨5, sendContent 5⟩], 32⟩, ⟨make 0 32, 32⟩],
    [("b", 1), ("a", 0)]⟩

/-- The history under `key` holds the newest 32 of the updates `acc` published
on `key`; a key without an entry has had no publish. -/
def HistOrNew (st : Store Config) (key : String) (acc : List Config) : Prop :=
  match st.m.lookup key with
  | none => acc = []
  | some p => ∃ q, st.cells[p]? = some q ∧ QInv 32 acc q

/-- The update the `/send` handler builds from a clock reading. -/
def sendConfig (now : Int) : Config := ⟨now, sendContent now⟩

/-- Every open channel of the heap is registered under some key. -/
def Hub.OpenRegistered (s : Hub) : Prop :=
  ∀ c ch, s.heap[c]? = some ch → ch.closed = false → ∃ k, c ∈ s.registered k

/-! ## Slice lemmas -/

theorem Slice.elems_length (s : Slice T) (h : s.len ≤ s.cap) : s.elems.length = s.len := by
  simp only [Slice.elems, Slice.cap, List.length_take] at *
  omega

theorem goAppend_len [Inhabited T] (rt : GoRuntime) (s : Slice T) (xs : List T) :
    (goAppend rt s xs).len = s.len + xs.length := by
  simp only [goAppend]
  split <;> rfl

theorem goAppend_elems [Inhabited T] (rt : GoRuntime) (s : Slice T) (xs : List T)
    (h : s.len ≤ s.cap) : (goAppend rt s xs).elems = s.elems ++ xs := by
  have hl : (s.elems ++ xs).length = s.len + xs.length := by
    rw [List.length_append, Slice.elems_length s h]
  simp only [goAppend]
  split
  · simp only [Slice.elems]
    rw [← hl]
    exact List.take_left' rfl
  · simp only [Slice.elems]
    rw [← hl]
    exact List.take_left' rfl

theorem goAppend_wf [Inhabited T] (rt : GoRuntime) (s : Slice T) (xs : List T)
    (h : s.len ≤ s.cap) : (goAppend rt s xs).len ≤ (goAppend rt s xs).cap := by
  have hl : s.elems.length = s.len := Slice.elems_length s h
  simp only [goAppend]
  split
  · rename_i hn
    simp only [Slice.cap, List.length_append, List.length_drop, hl] at *
    omega
  · simp only [Slice.cap, List.length_append, List.length_replicate, hl]
    omega

/-! ## CappedQueue lemmas -/

theorem NewCappedQueue_inv [Inhabited T] (C : Int) (hC : 0 ≤ C) :
    ∃ q0 : CappedQueue T, NewCappedQueue C = some q0 ∧ QInv C [] q0 := by
  refine ⟨{ items := make 0 C.toNat, capacity := C }, ?_, rfl, ?_, ?_⟩
  · simp [NewCappedQueue, not_lt.mpr hC]
  · simp [make]
  · simp [make, Slice.elems]

theorem Append_inv [Inhabited T] (rt : GoRuntime) (C : Int) (hC : 1 ≤ C) (acc : List T)
    (q : CappedQueue T) (x : T) (h : QInv C acc q) :
    ∃ q1, q.Append rt x = some q1 ∧ QInv C (acc ++ [x]) q1 := by
  obtain ⟨hcap, hwf, hel⟩ := h
  have hlen : q.items.elems.length = q.items.len := Slice.elems_length _ hwf
  obtain ⟨n, rfl⟩ : ∃ n : Nat, C = (n : Int) := ⟨C.toNat, by omega⟩
  have hn : 1 ≤ n := by omega
  simp only [Int.toNat_ofNat] at hel ⊢
  have hl : q.items.len = min acc.length n := by
    rw [← hlen, hel]; simp [Nat.min_comm]
  have htarget : (acc ++ [x]).reverse.take n = x :: acc.reverse.take (n - 1) := by
    obtain ⟨m, rfl⟩ : ∃ m, n = m + 1 := ⟨n - 1, by omega⟩
    simp
  unfold CappedQueue.Append
  by_cases h0 : q.items.len = 0
  · simp only [h0, ↓reduceIte]
    refine ⟨_, rfl, hcap, goAppend_wf rt _ _ hwf, ?_⟩
    rw [Int.toNat_ofNat]
    have hacc : acc = [] := by
      have : acc.length = 0 := by omega
      exact List.length_eq_zero.mp this
    subst hacc
    have he : q.items.elems = [] := by simpa using hel
    show (goAppend rt q.items [x]).elems = _
    rw [goAppend_elems rt _ _ hwf, he, htarget]
    simp
  · simp only [h0, ↓reduceIte, hcap]
    have hto : (if (q.items.len : Int) < (n : Int) then (q.items.len : Int) else (n : Int) - 1)
        = ((min acc.length (n - 1) : Nat) : Int) := by
      split <;> omega
    rw [hto]
    have hb : (0 : Int) ≤ ((min acc.length (n - 1) : Nat) : Int) ∧
        ((min acc.length (n - 1) : Nat) : Int) ≤ (q.items.cap : Int) := by
      constructor <;> omega
    simp only [Slice.sliceTo, hb, and_self, ↓reduceIte, Int.toNat_ofNat]
    refine ⟨_, rfl, rfl, goAppend_wf rt _ _ (by simp [Slice.lit1, Slice.cap]), ?_⟩
    rw [Int.toNat_ofNat]
    show (goAppend rt (Slice.lit1 x) _).elems = _
    rw [goAppend_elems rt _ _ (by simp [Slice.lit1, Slice.cap]), htarget]
    have ht : List.take (min acc.length (n - 1)) q.items.arr = acc.reverse.take (n - 1) := by
      have h1 : List.take (min acc.length (n - 1)) q.items.arr
          = List.take (min acc.length (n - 1)) q.items.elems := by
        simp only [Slice.elems, List.take_take]
        congr 1
        omega
      rw [h1, hel, List.take_take]
      have h2 : min (min acc.length (n - 1)) n = min acc.length (n - 1) := by omega
      rw [h2]
      apply List.take_eq_take.mpr
      simp [Nat.min_comm]
    simp only [Slice.elems, Slice.lit1, List.take_succ_cons, List.take_zero, ht]
    rfl

theorem appendAll_inv [Inhabited T] (rt : GoRuntime) (C : Int) (hC : 1 ≤ C) (xs : List T) :
    ∀ (acc : List T) (q : CappedQueue T), QInv C acc q →
      ∃ q1, q.appendAll rt xs = some q1 ∧ QInv C (acc ++ xs) q1 := by
  induction xs with
  | nil => intro acc q h; exact ⟨q, rfl, by simpa using h⟩
  | cons x xs ih =>
    intro acc q h
    obtain ⟨q1, h1, hinv⟩ := Append_inv rt C hC acc q x h
    obtain ⟨q2, h2, hinv2⟩ := ih (acc ++ [x]) q1 hinv
    refine ⟨q2, ?_, by simpa using hinv2⟩
    simp [CappedQueue.appendAll, h1, h2]

theorem Filter_eq_filter (data : List T) (f : T → Bool) : Filter data f = data.filter f := by
  have key : ∀ (l acc : List T),
      l.foldl (fun ret d => if f d then ret ++ [d] else ret) acc = acc ++ l.filter f := by
    intro l
    induction l with
    | nil => intro acc; simp
    | cons d l ih =>
      intro acc
      simp only [List.foldl_cons, ih, List.filter_cons]
      split <;> simp
  simpa [Filter] using key data []

theorem Copy_eq [Inhabited T] (q : CappedQueue T) (h : q.items.len ≤ q.items.cap) :
    q.Copy = q.items.elems ++ List.replicate (q.items.cap - q.items.len) default := by
  have hl : q.items.elems.length = q.items.len := Slice.elems_length _ h
  have hm : min q.items.cap q.items.len = q.items.len := by omega
  simp only [CappedQueue.Copy, goCopy, make, hm, Slice.elems, List.drop_replicate]
  rw [List.take_of_length_le]
  · congr 1
    have := hl
    simp only [Slice.elems] at this
    rw [List.take_of_length_le (by omega)]
  · have := hl
    simp only [Slice.elems] at this
    simp only [List.length_append, List.length_take, List.length_replicate] at *
    omega

theorem getUpdates_of_nonneg (q : CappedQueue Config) (h : q.items.len ≤ q.items.cap)
    (V : Int) (hV : 0 ≤ V) :
    getUpdates q V = q.items.elems.filter (fun c => decide (c.LastUpdated > V)) := by
  simp only [getUpdates, Filter_eq_filter, Copy_eq q h, List.filter_append]
  have : List.filter (fun c : Config => decide (c.LastUpdated > V))
      (List.replicate (q.items.cap - q.items.len) default) = [] := by
    rw [List.filter_eq_nil_iff]
    intro c hc
    have := List.eq_of_mem_replicate hc
    subst this
    simp only [gt_iff_lt, decide_eq_true_eq, not_lt]
    exact hV
  rw [this, List.append_nil]

/-! ## Claims about the queue and the filter -/

/-- C1: for every capacity `C ≥ 1` and every sequence `xs` of appended items,
the `Append` calls all return and the queue then holds exactly the most recent
`min (length xs) C` items, newest first. -/
theorem C1_append_keeps_newest [Inhabited T] (rt : GoRuntime) (C : Int) (hC : 1 ≤ C)
    (xs : List T) :
    ∃ q0 q : CappedQueue T, NewCappedQueue C = some q0 ∧ q0.appendAll rt xs = some q ∧
      q.items.elems = (xs.drop (xs.length - min xs.length C.toNat)).reverse ∧
      q.items.elems = xs.reverse.take (min xs.length C.toNat) ∧
      q.items.elems.length = min xs.length C.toNat := by
  obtain ⟨q0, h0, hinv0⟩ := @NewCappedQueue_inv T _ C (by omega)
  obtain ⟨q, hq, _, _, hel⟩ := appendAll_inv rt C hC xs [] q0 hinv0
  simp only [List.nil_append] at hel
  have ht : xs.reverse.take (min xs.length C.toNat) = xs.reverse.take C.toNat := by
    apply List.take_eq_take.mpr
    simp [Nat.min_comm]
  refine ⟨q0, q, h0, hq, ?_, ?_, ?_⟩
  · rw [hel, ← ht, List.reverse_drop]
    congr 1
    omega
  · rw [hel, ht]
  · rw [hel]; simp [Nat.min_comm]

/-- Witness for C1: 40 appends to a queue of capacity 32. -/
theorem C1_append_keeps_newest_witness :
    (1 : Int) ≤ 32 ∧
    ∃ q0 q : CappedQueue Nat, NewCappedQueue 32 = some q0 ∧
      q0.appendAll exactRuntime (List.range 40) = some q ∧
      q.items.elems = ((List.range 40).drop
        ((List.range 40).length - min (List.range 40).length (32 : Int).toNat)).reverse ∧
      q.items.elems = (List.range 40).reverse.take
        (min (List.range 40).length (32 : Int).toNat) ∧
      q.items.elems.length = min (List.range 40).length (32 : Int).toNat :=
  ⟨by decide, C1_append_keeps_newest exactRuntime 32 (by decide) (List.range 40)⟩

/-- C2 at capacity 0: a queue made by `NewCappedQueue(0)` stores one item after
its first `Append`, which is more than its capacity. -/
theorem C2_capacity_zero_exceeded [Inhabited T] (rt : GoRuntime) (x : T) :
    ∃ q0 q1 : CappedQueue T, NewCappedQueue 0 = some q0 ∧ q0.Append rt x = some q1 ∧
      q1.items.elems = [x] ∧ q1.capacity = 0 ∧ ¬ ((q1.items.elems.length : Int) ≤ q1.capacity) := by
  refine ⟨_, _, rfl, rfl, ?_, rfl, ?_⟩
  · simp [goAppend, make, Slice.elems, Slice.cap]
  · simp [goAppend, make, Slice.elems, Slice.cap]

/-- C3 on the queues the server creates: `Copy` of a fresh queue of capacity 32
returns 32 zero values although nothing is stored, and after one `Append` it
returns the item followed by 31 zero values. -/
theorem C3_copy_pads_to_cap :
    ∃ q0 q1 : CappedQueue Config, NewCappedQueue 32 = some q0 ∧
      q0.items.elems = [] ∧ q0.Copy = List.replicate 32 ⟨0, ""⟩ ∧
      q0.Append exactRuntime ⟨7, "a"⟩ = some q1 ∧
      q1.items.elems = [⟨7, "a"⟩] ∧ q1.Copy = ⟨7, "a"⟩ :: List.replicate 31 ⟨0, ""⟩ := by
  refine ⟨_, _, rfl, ?_, ?_, rfl, ?_, ?_⟩ <;> decide

/-- C4: `Filter data f` is the standard list filter: the subsequence of `data`
whose elements satisfy `f`, in the order of `data`; with
`f c = (c.LastUpdated > V)` its members are the members of `data` with version
greater than `V`. -/
theorem C4_filter_is_list_filter (data : List T) (f : T → Bool) :
    Filter data f = data.filter f ∧
    (Filter data f).Sublist data ∧
    (∀ x, x ∈ Filter data f ↔ x ∈ data ∧ f x = true) ∧
    (∀ (H : List Config) (V : Int),
      Filter H (fun c => decide (c.LastUpdated > V))
        = H.filter (fun c => decide (c.LastUpdated > V)) ∧
      ∀ c, c ∈ Filter H (fun c => decide (c.LastUpdated > V)) ↔ c ∈ H ∧ c.LastUpdated > V) := by
  refine ⟨Filter_eq_filter data f, ?_, ?_, ?_⟩
  · rw [Filter_eq_filter]; exact List.filter_sublist data
  · intro x; rw [Filter_eq_filter]; exact List.mem_filter
  · intro H V
    refine ⟨Filter_eq_filter _ _, ?_⟩
    intro c
    rw [Filter_eq_filter, List.mem_filter]
    simp

/-- C5 at a negative cursor: on a fresh queue of capacity 32 (a key on which
nothing was published) `getUpdates (-1)` is a list of 32 zero-valued updates,
none of which was appended. -/
theorem C5_negative_cursor_returns_padding :
    ∃ q0 : CappedQueue Config, NewCappedQueue 32 = some q0 ∧
      q0.items.elems = [] ∧ getUpdates q0 (-1) = List.replicate 32 ⟨0, ""⟩ := by
  refine ⟨_, rfl, ?_, ?_⟩ <;> decide

/-! ## Channel lemmas -/

theorem chanSend_length (h : Heap) (c : Nat) : (chanSend h c).2.length = h.length := by
  unfold chanSend
  split
  · rfl
  · split
    · rfl
    · split <;> simp

theorem chanSend_ne (h : Heap) (c d : Nat) (hd : d ≠ c) : (chanSend h c).2[d]? = h[d]? := by
  unfold chanSend
  split
  · rfl
  · split
    · rfl
    · split
      · simp [List.getElem?_set, Ne.symm hd]
      · rfl

theorem chanSend_closed (h : Heap) (c d : Nat) :
    ((chanSend h c).2[d]?).map Chan.closed = (h[d]?).map Chan.closed := by
  by_cases hd : d = c
  · subst hd
    unfold chanSend
    split
    · rfl
    · rename_i ch hch
      split
      · rfl
      · split
        · have hlt : d < h.length := (List.getElem?_eq_some_iff.mp hch).1
          simp [List.getElem?_set, hlt, hch]
        · rfl
  · rw [chanSend_ne h c d hd]

theorem chanSend_empty (h : Heap) (c : Nat) (hc : h[c]? = some ⟨0, false⟩) :
    (chanSend h c).1 = .done ∧ (chanSend h c).2[c]? = some ⟨1, false⟩ := by
  have hlt : c < h.length := (List.getElem?_eq_some_iff.mp hc).1
  unfold chanSend
  simp [hc, chanCap, List.getElem?_set, hlt]

theorem chanRecv_length (h : Heap) (c : Nat) : (chanRecv h c).2.length = h.length := by
  unfold chanRecv
  split
  · rfl
  · split
    · simp
    · split <;> rfl

theorem chanRecv_closed (h : Heap) (c d : Nat) :
    ((chanRecv h c).2[d]?).map Chan.closed = (h[d]?).map Chan.closed := by
  unfold chanRecv
  split
  · rfl
  · rename_i ch hch
    have hlt : c < h.length := (List.getElem?_eq_some_iff.mp hch).1
    split
    · by_cases hd : c = d
      · subst hd; simp [List.getElem?_set, hlt, hch]
      · simp [List.getElem?_set, hd]
    · split <;> rfl

theorem chanClose_length (h : Heap) (c : Nat) : (chanClose h c).2.length = h.length := by
  unfold chanClose
  split
  · rfl
  · split
    · rfl
    · simp

theorem chanClose_ne (h : Heap) (c d : Nat) (hd : d ≠ c) : (chanClose h c).2[d]? = h[d]? := by
  unfold chanClose
  split
  · rfl
  · split
    · rfl
    · simp [List.getElem?_set, Ne.symm hd]

theorem chanClose_open (h : Heap) (c : Nat) (ch : Chan) (hc : h[c]? = some ch)
    (ho : ch.closed = false) : (chanClose h c).1 = .done := by
  unfold chanClose
  simp [hc, ho]

theorem sendAll_length (cs : List Nat) : ∀ h : Heap, (sendAll h cs).2.length = h.length := by
  induction cs with
  | nil => intro h; rfl
  | cons c cs ih =>
    intro h
    have hl := chanSend_length h c
    unfold sendAll
    split
    · rename_i h1 heq
      rw [ih h1, ← hl, heq]
    · exact hl

theorem sendAll_not_mem (cs : List Nat) (d : Nat) (hd : d ∉ cs) :
    ∀ h : Heap, (sendAll h cs).2[d]? = h[d]? := by
  induction cs with
  | nil => intro h; rfl
  | cons c cs ih =>
    intro h
    have hne : d ≠ c := fun e => hd (e ▸ List.mem_cons_self _ _)
    have hl := chanSend_ne h c d hne
    unfold sendAll
    split
    · rename_i h1 heq
      rw [ih (fun m => hd (List.mem_cons_of_mem _ m)) h1, ← hl, heq]
    · exact hl

theorem sendAll_closed (cs : List Nat) (d : Nat) :
    ∀ h : Heap, ((sendAll h cs).2[d]?).map Chan.closed = (h[d]?).map Chan.closed := by
  induction cs with
  | nil => intro h; rfl
  | cons c cs ih =>
    intro h
    have hl := chanSend_closed h c d
    unfold sendAll
    split
    · rename_i h1 heq
      rw [ih h1, ← hl, heq]
    · exact hl

theorem sendAll_empty (cs : List Nat) (hnd : cs.Nodup) :
    ∀ h : Heap, (∀ c ∈ cs, h[c]? = some ⟨0, false⟩) →
      (sendAll h cs).1 = .done ∧ ∀ c ∈ cs, (sendAll h cs).2[c]? = some ⟨1, false⟩ := by
  induction cs with
  | nil => intro h _; exact ⟨rfl, by simp⟩
  | cons c cs ih =>
    intro h hall
    obtain ⟨hnot, hnd1⟩ := List.nodup_cons.mp hnd
    obtain ⟨hdone, hset⟩ := chanSend_empty h c (hall c (List.mem_cons_self _ _))
    have hrest : ∀ d ∈ cs, (chanSend h c).2[d]? = some ⟨0, false⟩ := by
      intro d hd
      have hne : d ≠ c := fun e => hnot (e ▸ hd)
      rw [chanSend_ne h c d hne]
      exact hall d (List.mem_cons_of_mem _ hd)
    obtain ⟨ih1, ih2⟩ := ih hnd1 (chanSend h c).2 hrest
    have hrun : sendAll h (c :: cs) = sendAll (chanSend h c).2 cs := by
      rw [sendAll]
      split
      · rename_i h1 heq
        rw [heq]
      · rename_i r hne
        have he : chanSend h c = (Status.done, (chanSend h c).2) :=
          Prod.ext_iff.mpr ⟨hdone, rfl⟩
        exact absurd he (hne (chanSend h c).2)
    rw [hrun]
    refine ⟨ih1, ?_⟩
    intro d hd
    rcases List.mem_cons.mp hd with rfl | hd
    · rw [sendAll_not_mem cs d hnot]
      exact hset
    · exact ih2 d hd

/-! ## Map and search lemmas -/

theorem lookup_setEntry (key : String) (p : PubSub) (k : String) :
    ∀ m : List (String × PubSub),
      (setEntry key p m).lookup k
        = if k = key then (m.lookup key).map (fun _ => p) else m.lookup k := by
  intro m
  induction m with
  | nil => simp [setEntry]
  | cons kv m ih =>
    obtain ⟨k0, p0⟩ := kv
    by_cases h0 : k0 = key
    · subst h0
      by_cases hk : k = k0
      · subst hk; simp [setEntry, List.lookup_cons]
      · have h1 : (k == k0) = false := by simpa using hk
        simp [setEntry, List.lookup_cons, hk, h1]
    · by_cases hk : k = key
      · subst hk
        have h1 : (k == k0) = false := by simpa using Ne.symm h0
        simp only [setEntry, h0, ↓reduceIte, List.lookup_cons, h1, ih]
      · by_cases hk0 : k = k0
        · subst hk0; simp [setEntry, h0, List.lookup_cons]
        · have h1 : (k == k0) = false := by simpa using hk0
          simp only [setEntry, h0, ↓reduceIte, List.lookup_cons, h1, ih, hk]

theorem setEntry_self (key : String) (p : PubSub) :
    ∀ m : List (String × PubSub), m.lookup key = some p → setEntry key p m = m := by
  intro m
  induction m with
  | nil => intro _; rfl
  | cons kv m ih =>
    obtain ⟨k0, p0⟩ := kv
    intro h
    by_cases h0 : k0 = key
    · subst h0
      simp only [List.lookup_cons, beq_self_eq_true, Option.some.injEq] at h
      simp [setEntry, h]
    · have h1 : (key == k0) = false := by simpa using Ne.symm h0
      simp only [List.lookup_cons, h1] at h
      simp [setEntry, h0, ih h]

theorem findChan_none (c : Nat) :
    ∀ (l : List Nat) (i : Nat), c ∉ l → findChan c l i = none := by
  intro l
  induction l with
  | nil => intro i _; rfl
  | cons ch rest ih =>
    intro i h
    have h1 : ch ≠ c := fun e => h (e ▸ List.mem_cons_self _ _)
    simp only [findChan, h1, ↓reduceIte]
    exact ih (i + 1) (fun m => h (List.mem_cons_of_mem _ m))

theorem findChan_some (c : Nat) :
    ∀ (l : List Nat) (i : Nat), c ∈ l →
      ∃ n, findChan c l i = some (i + n) ∧ l.take n ++ l.drop (n + 1) = l.erase c := by
  intro l
  induction l with
  | nil => intro i h; simp at h
  | cons ch rest ih =>
    intro i h
    by_cases h1 : ch = c
    · subst h1
      exact ⟨0, by simp [findChan], by simp⟩
    · have hm : c ∈ rest := by
        rcases List.mem_cons.mp h with e | e
        · exact absurd e.symm h1
        · exact e
      obtain ⟨n, hn, he⟩ := ih (i + 1) hm
      refine ⟨n + 1, ?_, ?_⟩
      · simp only [findChan, h1, ↓reduceIte, hn]
        congr 1
        omega
      · have h2 : (ch == c) = false := by simpa using h1
        simp only [List.take_succ_cons, List.drop_succ_cons, List.cons_append, he,
          List.erase_cons, h2]
        rfl

/-! ## What each hub call does -/

theorem registered_eq (s : Hub) (key : String) (p : PubSub)
    (h : s.pubSubs.lookup key = some p) : s.registered key = p.channels := by
  simp [Hub.registered, h]

theorem Subscribe_fst (s : Hub) (key : String) : (s.Subscribe key).1 = s.heap.length := by
  unfold Hub.Subscribe
  split <;> rfl

theorem Subscribe_heap (s : Hub) (key : String) :
    (s.Subscribe key).2.heap = s.heap ++ [⟨0, false⟩] := by
  unfold Hub.Subscribe
  split <;> rfl

theorem Subscribe_registered (s : Hub) (key k : String) :
    (s.Subscribe key).2.registered k
      = if k = key then s.registered key ++ [s.heap.length] else s.registered k := by
  unfold Hub.Subscribe
  split
  · rename_i v hv
    by_cases hk : k = key
    · subst hk
      simp [Hub.registered, lookup_setEntry, hv, PubSub.subscribe]
    · simp [Hub.registered, lookup_setEntry, hk]
  · rename_i hv
    simp only [Hub.registered, List.lookup_cons, hv, PubSub.subscribe, NewPubSub]
    by_cases hk : k = key
    · subst hk; simp
    · have h1 : (k == key) = false := by simpa using hk
      simp [h1, hk]

theorem Publish_pubSubs (s : Hub) (key : String) : (s.Publish key).2.pubSubs = s.pubSubs := by
  unfold Hub.Publish
  split <;> rfl

theorem Publish_eq (s : Hub) (key : String) :
    (s.Publish key).1 = (sendAll s.heap (s.registered key)).1 ∧
    (s.Publish key).2.heap = (sendAll s.heap (s.registered key)).2 := by
  unfold Hub.Publish
  split
  · rename_i v hv
    simp [Hub.registered, hv, PubSub.publish]
  · rename_i hv
    simp [Hub.registered, hv, sendAll]

theorem Publish_registered (s : Hub) (key k : String) :
    (s.Publish key).2.registered k = s.registered k := by
  simp only [Hub.registered, Publish_pubSubs]

theorem unsubscribe_not_mem (s : Hub) (key : String) (c : Nat)
    (hc : c ∉ s.registered key) : s.unsubscribe key c = (.done, s) := by
  unfold Hub.unsubscribe
  split
  · rfl
  · rename_i p hp
    rw [registered_eq s key p hp] at hc
    simp only [PubSub.unsubscribe, findChan_none c p.channels 0 hc, setEntry_self key p _ hp]

theorem unsubscribe_mem (s : Hub) (key : String) (c : Nat) (hc : c ∈ s.registered key) :
    (s.unsubscribe key c).1 = (chanClose s.heap c).1 ∧
    (s.unsubscribe key c).2.heap = (chanClose s.heap c).2 ∧
    ∀ k, (s.unsubscribe key c).2.registered k
      = if k = key then (s.registered key).erase c else s.registered k := by
  unfold Hub.unsubscribe
  split
  · rename_i hp
    simp [Hub.registered, hp] at hc
  · rename_i p hp
    rw [registered_eq s key p hp] at hc
    obtain ⟨n, hn, he⟩ := findChan_some c p.channels 0 hc
    rw [Nat.zero_add] at hn
    refine ⟨?_, ?_, ?_⟩
    · simp only [PubSub.unsubscribe, hn]
    · simp only [PubSub.unsubscribe, hn]
    · intro k
      by_cases hk : k = key
      · subst hk
        simp [Hub.registered, lookup_setEntry, hp, PubSub.unsubscribe, hn, he]
      · simp [Hub.registered, lookup_setEntry, hk]

theorem unsubscribe_length (s : Hub) (key : String) (c : Nat) :
    (s.unsubscribe key c).2.heap.length = s.heap.length := by
  by_cases hc : c ∈ s.registered key
  · rw [(unsubscribe_mem s key c hc).2.1, chanClose_length]
  · rw [unsubscribe_not_mem s key c hc]

theorem unsubscribe_registered_subset (s : Hub) (key : String) (c : Nat) (k : String) (d : Nat)
    (hd : d ∈ (s.unsubscribe key c).2.registered k) : d ∈ s.registered k := by
  by_cases hc : c ∈ s.registered key
  · rw [(unsubscribe_mem s key c hc).2.2 k] at hd
    split at hd
    · rename_i hk
      subst hk
      exact List.mem_of_mem_erase hd
    · exact hd
  · rw [unsubscribe_not_mem s key c hc] at hd
    exact hd

/-! ## The invariant of the hub -/

theorem WF_NewHub : NewHub.WF := by
  refine ⟨?_, ?_, ?_⟩ <;> simp [Hub.registered, NewHub]

theorem WF_lt (s : Hub) (hw : s.WF) (k : String) (c : Nat) (hc : c ∈ s.registered k) :
    c < s.heap.length := by
  obtain ⟨ch, hch, _⟩ := hw.1 k c hc
  exact (List.getElem?_eq_some_iff.mp hch).1

theorem open_of_closed_eq (h h1 : Heap) (d : Nat)
    (he : (h1[d]?).map Chan.closed = (h[d]?).map Chan.closed)
    (ho : ∃ ch, h[d]? = some ch ∧ ch.closed = false) :
    ∃ ch, h1[d]? = some ch ∧ ch.closed = false := by
  obtain ⟨ch, hch, hcl⟩ := ho
  rw [hch] at he
  cases h1d : h1[d]? with
  | none => rw [h1d] at he; simp at he
  | some ch1 =>
    rw [h1d] at he
    simp only [Option.map_some', Option.some.injEq] at he
    exact ⟨ch1, rfl, by rw [he, hcl]⟩

theorem WF_Subscribe (s : Hub) (hw : s.WF) (key : String) : (s.Subscribe key).2.WF := by
  have hfresh : ∀ k, s.heap.length ∉ s.registered k := by
    intro k hm
    exact Nat.lt_irrefl _ (WF_lt s hw k _ hm)
  have hmem : ∀ k c, c ∈ (s.Subscribe key).2.registered k →
      c ∈ s.registered k ∨ (c = s.heap.length ∧ k = key) := by
    intro k c hc
    rw [Subscribe_registered] at hc
    split at hc
    · rename_i hk
      subst hk
      rcases List.mem_append.mp hc with h | h
      · exact Or.inl h
      · exact Or.inr ⟨by simpa using h, rfl⟩
    · exact Or.inl hc
  refine ⟨?_, ?_, ?_⟩
  · intro k c hc
    rw [Subscribe_heap]
    rcases hmem k c hc with h | ⟨h, _⟩
    · obtain ⟨ch, hch, hcl⟩ := hw.1 k c h
      refine ⟨ch, ?_, hcl⟩
      rw [List.getElem?_append_left (WF_lt s hw k c h)]
      exact hch
    · subst h
      exact ⟨⟨0, false⟩, by simp, rfl⟩
  · intro k
    rw [Subscribe_registered]
    split
    · rename_i hk
      subst hk
      rw [List.nodup_append]
      refine ⟨hw.2.1 k, List.nodup_singleton _, ?_⟩
      intro a ha hb
      have : a = s.heap.length := by simpa using hb
      subst this
      exact hfresh k ha
    · exact hw.2.1 k
  · intro k1 k2 c h1 h2
    rcases hmem k1 c h1 with a | ⟨a, ak⟩
    · rcases hmem k2 c h2 with b | ⟨b, _⟩
      · exact hw.2.2 k1 k2 c a b
      · subst b; exact absurd a (hfresh k1)
    · rcases hmem k2 c h2 with b | ⟨_, bk⟩
      · subst a; exact absurd b (hfresh k2)
      · rw [ak, bk]

theorem unsubscribe_other (s : Hub) (hw : s.WF) (key : String) (c : Nat) (k : String) (d : Nat)
    (hd : d ∈ (s.unsubscribe key c).2.registered k) :
    (s.unsubscribe key c).2.heap[d]? = s.heap[d]? := by
  by_cases hc : c ∈ s.registered key
  · obtain ⟨_, hheap, hreg⟩ := unsubscribe_mem s key c hc
    rw [hheap]
    apply chanClose_ne
    rw [hreg k] at hd
    split at hd
    · rename_i hk
      subst hk
      exact ((hw.2.1 k).mem_erase_iff.mp hd).1
    · rename_i hk
      intro e
      subst e
      exact hk (hw.2.2 k key d hd hc)
  · rw [unsubscribe_not_mem s key c hc]

theorem WF_unsubscribe (s : Hub) (hw : s.WF) (key : String) (c : Nat) :
    (s.unsubscribe key c).2.WF := by
  refine ⟨?_, ?_, ?_⟩
  · intro k d hd
    rw [unsubscribe_other s hw key c k d hd]
    exact hw.1 k d (unsubscribe_registered_subset s key c k d hd)
  · intro k
    by_cases hc : c ∈ s.registered key
    · rw [(unsubscribe_mem s key c hc).2.2 k]
      split
      · rename_i hk
        subst hk
        exact (hw.2.1 k).erase c
      · exact hw.2.1 k
    · rw [unsubscribe_not_mem s key c hc]
      exact hw.2.1 k
  · intro k1 k2 d h1 h2
    exact hw.2.2 k1 k2 d (unsubscribe_registered_subset s key c k1 d h1)
      (unsubscribe_registered_subset s key c k2 d h2)

theorem WF_Publish (s : Hub) (hw : s.WF) (key : String) : (s.Publish key).2.WF := by
  refine ⟨?_, ?_, ?_⟩
  · intro k d hd
    rw [Publish_registered] at hd
    rw [(Publish_eq s key).2]
    exact open_of_closed_eq _ _ d (sendAll_closed _ d s.heap) (hw.1 k d hd)
  · intro k
    rw [Publish_registered]
    exact hw.2.1 k
  · intro k1 k2 d h1 h2
    rw [Publish_registered] at h1 h2
    exact hw.2.2 k1 k2 d h1 h2

theorem WF_recv (s : Hub) (hw : s.WF) (c : Nat) : (s.recv c).2.WF := by
  refine ⟨?_, ?_, ?_⟩
  · intro k d hd
    exact open_of_closed_eq _ _ d (chanRecv_closed s.heap c d) (hw.1 k d hd)
  · intro k
    exact hw.2.1 k
  · intro k1 k2 d h1 h2
    exact hw.2.2 k1 k2 d h1 h2

theorem WF_step (s : Hub) (hw : s.WF) (a : Action) : (s.step a).2.WF := by
  cases a with
  | subscribe key => exact WF_Subscribe s hw key
  | unsubscribe key c => exact WF_unsubscribe s hw key c
  | publish key => exact WF_Publish s hw key
  | recv c => exact WF_recv s hw c

theorem run_cons_done (s s1 : Hub) (a : Action) (as : List Action)
    (h : s.run (a :: as) = (.done, s1)) :
    (s.step a).1 = .done ∧ (s.step a).2.run as = (.done, s1) := by
  rw [Hub.run] at h
  split at h
  · rename_i s2 heq
    rw [heq]
    exact ⟨rfl, h⟩
  · rename_i hne
    exact absurd h (hne s1)

theorem WF_run (acts : List Action) :
    ∀ s s1 : Hub, s.WF → s.run acts = (.done, s1) → s1.WF := by
  induction acts with
  | nil =>
    intro s s1 hw h
    simp only [Hub.run, Prod.mk.injEq, true_and] at h
    exact h ▸ hw
  | cons a as ih =>
    intro s s1 hw h
    exact ih _ s1 (WF_step s hw a) (run_cons_done s s1 a as h).2

theorem WF_of_Reachable (s : Hub) (h : s.Reachable) : s.WF := by
  obtain ⟨acts, ha⟩ := h
  exact WF_run acts NewHub s WF_NewHub ha

/-- A channel that exists and is not registered under `key` stays so. -/
theorem gone_step (s : Hub) (key : String) (c : Nat) (a : Action)
    (h : c < s.heap.length ∧ c ∉ s.registered key) :
    c < (s.step a).2.heap.length ∧ c ∉ (s.step a).2.registered key := by
  obtain ⟨hlt, hnm⟩ := h
  cases a with
  | subscribe k =>
    refine ⟨?_, ?_⟩
    · show c < (s.Subscribe k).2.heap.length
      rw [Subscribe_heap, List.length_append]
      omega
    · show c ∉ (s.Subscribe k).2.registered key
      rw [Subscribe_registered]
      split
      · rename_i hk
        subst hk
        intro hm
        rcases List.mem_append.mp hm with h1 | h1
        · exact hnm h1
        · have : c = s.heap.length := by simpa using h1
          omega
      · exact hnm
  | unsubscribe k d =>
    refine ⟨?_, ?_⟩
    · show c < (s.unsubscribe k d).2.heap.length
      rw [unsubscribe_length]
      exact hlt
    · exact fun hm => hnm (unsubscribe_registered_subset s k d key c hm)
  | publish k =>
    refine ⟨?_, ?_⟩
    · show c < (s.Publish k).2.heap.length
      rw [(Publish_eq s k).2, sendAll_length]
      exact hlt
    · show c ∉ (s.Publish k).2.registered key
      rw [Publish_registered]
      exact hnm
  | recv d =>
    refine ⟨?_, hnm⟩
    show c < (chanRecv s.heap d).2.length
    rw [chanRecv_length]
    exact hlt

theorem gone_run (key : String) (c : Nat) (acts : List Action) :
    ∀ s s1 : Hub, (c < s.heap.length ∧ c ∉ s.registered key) → s.run acts = (.done, s1) →
      c < s1.heap.length ∧ c ∉ s1.registered key := by
  induction acts with
  | nil =>
    intro s s1 hg h
    simp only [Hub.run, Prod.mk.injEq, true_and] at h
    exact h ▸ hg
  | cons a as ih =>
    intro s s1 hg h
    exact ih _ s1 (gone_step s key c a hg) (run_cons_done s s1 a as h).2

theorem demoHub_reachable : demoHub.Reachable :=
  ⟨[.subscribe "a", .subscribe "a", .subscribe "b", .publish "b"], rfl⟩

/-! ## Claims about the hub -/

/-- C6 at the input named in the claim: after `Subscribe(k); Publish(k)` with no
receive, the signal's buffer is full, and the second `Publish(k)` attempts the
send on that full channel and does not return. -/
theorem C6_second_publish_blocks :
    NewHub.run [.subscribe "k", .publish "k"]
      = (.done, ⟨[⟨1, false⟩], [("k", ⟨[0]⟩)]⟩) ∧
    chanSend [⟨1, false⟩] 0 = (.blocked, [⟨1, false⟩]) ∧
    (Hub.Publish ⟨[⟨1, false⟩], [("k", ⟨[0]⟩)]⟩ "k").1 = .blocked ∧
    (NewHub.run [.subscribe "k", .publish "k", .publish "k"]).1 = .blocked := by
  refine ⟨?_, ?_, ?_, ?_⟩ <;> decide

/-- C7 fails: after `Subscribe(k); Publish(k)` the signal is still registered,
and once its notification has been received a later `Publish(k)` notifies it
again, although the unsubscribe function was never called. -/
theorem C7_publish_does_not_clear :
    ((NewHub.Subscribe "k").2.Publish "k").1 = .done ∧
    ((NewHub.Subscribe "k").2.Publish "k").2.registered "k" = [0] ∧
    ¬ (((NewHub.Subscribe "k").2.Publish "k").2.registered "k" = []) ∧
    NewHub.run [.subscribe "k", .publish "k", .recv 0] = (.done, ⟨[⟨0, false⟩], [("k", ⟨[0]⟩)]⟩) ∧
    NewHub.run [.subscribe "k", .publish "k", .recv 0, .publish "k"]
      = (.done, ⟨[⟨1, false⟩], [("k", ⟨[0]⟩)]⟩) := by
  refine ⟨?_, ?_, ?_, ?_, ?_⟩ <;> decide

/-- C7 as amended: `Hub.Publish(key)` sends to the channels registered under
`key` and changes no registration set; a signal registered under `key` is still
registered after every `Publish`, `Subscribe`, receive and unsubscribe call
other than its own unsubscribe function (also after calls that do not return),
so it is removed only by that function and later `Publish(key)` calls send to
it again. -/
theorem C7_publish_keeps_registrations (s : Hub) (key : String) :
    (s.Publish key).1 = (sendAll s.heap (s.registered key)).1 ∧
    (s.Publish key).2.heap = (sendAll s.heap (s.registered key)).2 ∧
    (s.Publish key).2.pubSubs = s.pubSubs ∧
    (∀ k, (s.Publish key).2.registered k = s.registered k) ∧
    (∀ (c : Nat) (a : Action), c ∈ s.registered key → a ≠ .unsubscribe key c →
      c ∈ (s.step a).2.registered key) ∧
    (∀ (c : Nat) (acts : List Action) (s1 : Hub), c ∈ s1.registered key →
      .unsubscribe key c ∉ acts → c ∈ (s1.exec acts).registered key) := by
  have hstep : ∀ (s0 : Hub) (c : Nat) (a : Action), c ∈ s0.registered key →
      a ≠ .unsubscribe key c → c ∈ (s0.step a).2.registered key := by
    intro s0 c a hc ha
    cases a with
    | subscribe k =>
      show c ∈ (s0.Subscribe k).2.registered key
      rw [Subscribe_registered]
      split
      · rename_i e
        rw [← e]
        exact List.mem_append_left _ hc
      · exact hc
    | unsubscribe k d =>
      show c ∈ (s0.unsubscribe k d).2.registered key
      by_cases hd : d ∈ s0.registered k
      · rw [(unsubscribe_mem s0 k d hd).2.2 key]
        split
        · rename_i e
          subst e
          have hne : c ≠ d := by
            intro e
            subst e
            exact ha rfl
          exact (List.mem_erase_of_ne hne).mpr hc
        · exact hc
      · rw [unsubscribe_not_mem s0 k d hd]
        exact hc
    | publish k =>
      show c ∈ (s0.Publish k).2.registered key
      rw [Publish_registered]
      exact hc
    | recv d => exact hc
  refine ⟨(Publish_eq s key).1, (Publish_eq s key).2, Publish_pubSubs s key,
    Publish_registered s key, hstep s, ?_⟩
  intro c acts
  induction acts with
  | nil => intro s1 hc _; exact hc
  | cons a as ih =>
    intro s1 hc hn
    have ha : a ≠ .unsubscribe key c := fun e => hn (e ▸ List.mem_cons_self _ _)
    exact ih _ (hstep s1 c a hc ha) (fun m => hn (List.mem_cons_of_mem _ m))

/-- C8: in a reachable hub state where no signal registered for `key` holds a
pending notification, `Hub.Publish(key)` returns, every signal registered for
`key` then holds exactly one notification and is still open, the registrations
are the ones present at the start, and no other channel is touched. -/
theorem C8_publish_notifies_every_registered (s : Hub) (key : String) (hs : s.Reachable)
    (hp : ∀ c ∈ s.registered key, s.pending c = some 0) :
    (s.Publish key).1 = .done ∧
    (s.Publish key).2.pubSubs = s.pubSubs ∧
    (∀ k, (s.Publish key).2.registered k = s.registered k) ∧
    (∀ c ∈ s.registered key, (s.Publish key).2.heap[c]? = some ⟨1, false⟩) ∧
    (∀ c ∈ s.registered key, (s.Publish key).2.pending c = some 1) ∧
    (∀ c, c ∉ s.registered key → (s.Publish key).2.heap[c]? = s.heap[c]?) := by
  have hw := WF_of_Reachable s hs
  have hall : ∀ c ∈ s.registered key, s.heap[c]? = some ⟨0, false⟩ := by
    intro c hc
    obtain ⟨ch, hch, hcl⟩ := hw.1 key c hc
    have hb := hp c hc
    simp only [Hub.pending, hch, Option.map_some', Option.some.injEq] at hb
    rw [hch]
    obtain ⟨b, cl⟩ := ch
    simp only at hb hcl
    rw [hb, hcl]
  obtain ⟨hdone, hone⟩ := sendAll_empty (s.registered key) (hw.2.1 key) s.heap hall
  obtain ⟨h1, h2⟩ := Publish_eq s key
  refine ⟨h1.trans hdone, Publish_pubSubs s key, Publish_registered s key, ?_, ?_, ?_⟩
  · intro c hc
    rw [h2]
    exact hone c hc
  · intro c hc
    simp only [Hub.pending, h2, hone c hc, Option.map_some']
  · intro c hc
    rw [h2]
    exact sendAll_not_mem _ c hc s.heap

/-- Witness for C8: publishing on key `a` of `demoHub`. -/
theorem C8_publish_notifies_every_registered_witness :
    demoHub.Reachable ∧ (∀ c ∈ demoHub.registered "a", demoHub.pending c = some 0) ∧
    ((demoHub.Publish "a").1 = .done ∧
    (demoHub.Publish "a").2.pubSubs = demoHub.pubSubs ∧
    (∀ k, (demoHub.Publish "a").2.registered k = demoHub.registered k) ∧
    (∀ c ∈ demoHub.registered "a", (demoHub.Publish "a").2.heap[c]? = some ⟨1, false⟩) ∧
    (∀ c ∈ demoHub.registered "a", (demoHub.Publish "a").2.pending c = some 1) ∧
    (∀ c, c ∉ demoHub.registered "a" → (demoHub.Publish "a").2.heap[c]? = demoHub.heap[c]?)) :=
  ⟨demoHub_reachable, by decide,
    C8_publish_notifies_every_registered demoHub "a" demoHub_reachable (by decide)⟩

/-- C9: for a signal `c` registered under `key` in a reachable state, the first
call of its unsubscribe function returns, removes exactly `c` from the key's
list (the others stay, in order), changes no other key's list and no other
channel; after that, whatever calls are made in between, every further call of
the same unsubscribe function returns and leaves the whole state unchanged. -/
theorem C9_unsubscribe_idempotent_local (s : Hub) (key : String) (c : Nat)
    (hs : s.Reachable) (hc : c ∈ s.registered key) :
    (s.unsubscribe key c).1 = .done ∧
    (s.unsubscribe key c).2.registered key = (s.registered key).filter (fun d => d ≠ c) ∧
    (∀ k, k ≠ key → (s.unsubscribe key c).2.registered k = s.registered k) ∧
    (∀ d, d ≠ c → (s.unsubscribe key c).2.heap[d]? = s.heap[d]?) ∧
    (∀ acts s1, (s.unsubscribe key c).2.run acts = (.done, s1) →
      s1.unsubscribe key c = (.done, s1)) := by
  have hw := WF_of_Reachable s hs
  obtain ⟨hst, hheap, hreg⟩ := unsubscribe_mem s key c hc
  obtain ⟨ch, hch, hcl⟩ := hw.1 key c hc
  refine ⟨hst.trans (chanClose_open s.heap c ch hch hcl), ?_, ?_, ?_, ?_⟩
  · rw [hreg key, if_pos rfl, (hw.2.1 key).erase_eq_filter]
    congr 1
    funext d
    by_cases hd : d = c <;> simp [hd]
  · intro k hk
    rw [hreg k, if_neg hk]
  · intro d hd
    rw [hheap]
    exact chanClose_ne s.heap c d hd
  · intro acts s1 hrun
    have hg : c < (s.unsubscribe key c).2.heap.length ∧
        c ∉ (s.unsubscribe key c).2.registered key := by
      refine ⟨?_, ?_⟩
      · rw [unsubscribe_length]
        exact WF_lt s hw key c hc
      · rw [hreg key, if_pos rfl]
        exact fun hm => ((hw.2.1 key).mem_erase_iff.mp hm).1 rfl
    exact unsubscribe_not_mem s1 key c (gone_run key c acts _ s1 hg hrun).2

/-- Witness for C9: the first reader of key `a` in `demoHub`. -/
theorem C9_unsubscribe_idempotent_local_witness :
    demoHub.Reachable ∧ 0 ∈ demoHub.registered "a" ∧
    ((demoHub.unsubscribe "a" 0).1 = .done ∧
    (demoHub.unsubscribe "a" 0).2.registered "a"
      = (demoHub.registered "a").filter (fun d => d ≠ 0) ∧
    (∀ k, k ≠ "a" → (demoHub.unsubscribe "a" 0).2.registered k = demoHub.registered k) ∧
    (∀ d, d ≠ 0 → (demoHub.unsubscribe "a" 0).2.heap[d]? = demoHub.heap[d]?) ∧
    (∀ acts s1, (demoHub.unsubscribe "a" 0).2.run acts = (.done, s1) →
      s1.unsubscribe "a" 0 = (.done, s1))) :=
  ⟨demoHub_reachable, by decide,
    C9_unsubscribe_idempotent_local demoHub "a" 0 demoHub_reachable (by decide)⟩

/-- C10: in a reachable hub state and for distinct keys `A` and `B`,
`Hub.Publish(A)` (whether or not it returns), `Hub.Subscribe(A)` and every
unsubscribe function of key `A` leave the registration list of `B` and the
channel state of every signal registered on `B` unchanged. -/
theorem C10_key_isolation (s : Hub) (A B : String) (hs : s.Reachable) (hAB : A ≠ B) :
    ((s.Publish A).2.registered B = s.registered B ∧
      ∀ c ∈ s.registered B, (s.Publish A).2.heap[c]? = s.heap[c]?) ∧
    ((s.Subscribe A).2.registered B = s.registered B ∧
      ∀ c ∈ s.registered B, (s.Subscribe A).2.heap[c]? = s.heap[c]?) ∧
    (∀ c, (s.unsubscribe A c).2.registered B = s.registered B ∧
      ∀ d ∈ s.registered B, (s.unsubscribe A c).2.heap[d]? = s.heap[d]?) := by
  have hw := WF_of_Reachable s hs
  have hBA : B ≠ A := Ne.symm hAB
  refine ⟨⟨Publish_registered s A B, ?_⟩, ⟨?_, ?_⟩, ?_⟩
  · intro c hc
    rw [(Publish_eq s A).2]
    apply sendAll_not_mem
    exact fun hm => hBA (hw.2.2 B A c hc hm)
  · rw [Subscribe_registered, if_neg hBA]
  · intro c hc
    rw [Subscribe_heap, List.getElem?_append_left (WF_lt s hw B c hc)]
  · intro c
    by_cases hc : c ∈ s.registered A
    · obtain ⟨_, hheap, hreg⟩ := unsubscribe_mem s A c hc
      refine ⟨by rw [hreg B, if_neg hBA], ?_⟩
      intro d hd
      rw [hheap]
      apply chanClose_ne
      intro e
      subst e
      exact hBA (hw.2.2 B A d hd hc)
    · rw [unsubscribe_not_mem s A c hc]
      exact ⟨rfl, fun _ _ => rfl⟩

/-- Witness for C10: keys `a` and `b` of `demoHub`. -/
theorem C10_key_isolation_witness :
    demoHub.Reachable ∧ "a" ≠ "b" ∧
    (((demoHub.Publish "a").2.registered "b" = demoHub.registered "b" ∧
      ∀ c ∈ demoHub.registered "b", (demoHub.Publish "a").2.heap[c]? = demoHub.heap[c]?) ∧
    ((demoHub.Subscribe "a").2.registered "b" = demoHub.registered "b" ∧
      ∀ c ∈ demoHub.registered "b", (demoHub.Subscribe "a").2.heap[c]? = demoHub.heap[c]?) ∧
    (∀ c, (demoHub.unsubscribe "a" c).2.registered "b" = demoHub.registered "b" ∧
      ∀ d ∈ demoHub.registered "b", (demoHub.unsubscribe "a" c).2.heap[d]? = demoHub.heap[d]?)) :=
  ⟨demoHub_reachable, by decide, C10_key_isolation demoHub "a" "b" demoHub_reachable (by decide)⟩

/-! ## More claims about the queue -/

theorem Append_eq_sliceTo [Inhabited T] (rt : GoRuntime) (q : CappedQueue T) (x : T)
    (h : q.items.len ≠ 0) :
    q.Append rt x = (q.items.sliceTo q.appendTo).map
      (fun tail => { q with items := goAppend rt (Slice.lit1 x) tail.elems }) := by
  simp only [CappedQueue.Append, CappedQueue.appendTo, h, ↓reduceIte]
  cases q.items.sliceTo (if (q.items.len : Int) < q.capacity then (q.items.len : Int)
    else q.capacity - 1) <;> rfl

theorem appendTo_bounds (C : Int) (hC : 1 ≤ C) (acc : List T) (q : CappedQueue T)
    (h : QInv C acc q) :
    (q.items.len : Int) ≤ C ∧
    (q.items.len ≠ 0 → 0 ≤ q.appendTo ∧ q.appendTo ≤ (q.items.len : Int)) := by
  obtain ⟨hcap, hwf, hel⟩ := h
  have hlen : q.items.elems.length = q.items.len := Slice.elems_length _ hwf
  have hle : q.items.len ≤ C.toNat := by
    rw [← hlen, hel, List.length_take]
    exact Nat.min_le_left _ _
  have hle1 : (q.items.len : Int) ≤ C := by omega
  refine ⟨hle1, ?_⟩
  intro h0
  simp only [CappedQueue.appendTo, hcap]
  split <;> omega

/-- C20: for a queue of capacity `C ≥ 1` and after any sequence of `Append`
calls, the queue holds at most `C` items, the bound `to` of `q.items[:to]`
satisfies `0 ≤ to ≤ len(q.items)`, and the next `Append` returns; for
capacity 0 the first `Append` returns and the second one evaluates
`q.items[:-1]` and panics. -/
theorem C20_append_slice_in_bounds [Inhabited T] (rt : GoRuntime) (C : Int) (hC : 1 ≤ C)
    (xs : List T) (x : T) :
    (∃ q0 q : CappedQueue T, NewCappedQueue C = some q0 ∧ q0.appendAll rt xs = some q ∧
      (q.items.len : Int) ≤ C ∧
      (q.items.len ≠ 0 → 0 ≤ q.appendTo ∧ q.appendTo ≤ (q.items.len : Int) ∧
        q.Append rt x = (q.items.sliceTo q.appendTo).map
          (fun tail => { q with items := goAppend rt (Slice.lit1 x) tail.elems })) ∧
      (q.Append rt x).isSome = true) ∧
    (∃ q0 q1 : CappedQueue T, NewCappedQueue 0 = some q0 ∧ q0.Append rt x = some q1 ∧
      q1.items.len = 1 ∧ q1.appendTo = -1 ∧ q1.items.sliceTo q1.appendTo = none ∧
      q1.Append rt x = none) := by
  constructor
  · obtain ⟨q0, h0, hinv0⟩ := @NewCappedQueue_inv T _ C (by omega)
    obtain ⟨q, hq, hinv⟩ := appendAll_inv rt C hC xs [] q0 hinv0
    obtain ⟨hb1, hb2⟩ := appendTo_bounds C hC _ q hinv
    obtain ⟨q1, hq1, _⟩ := Append_inv rt C hC _ q x hinv
    refine ⟨q0, q, h0, hq, hb1, ?_, by rw [hq1]; rfl⟩
    intro hne
    exact ⟨(hb2 hne).1, (hb2 hne).2, Append_eq_sliceTo rt q x hne⟩
  · have hlen : (goAppend rt (make 0 0 : Slice T) [x]).len = 1 := by
      rw [goAppend_len]; rfl
    have hto : CappedQueue.appendTo
        ({ items := goAppend rt (make 0 0) [x], capacity := 0 } : CappedQueue T) = -1 := by
      simp only [CappedQueue.appendTo, hlen]
      decide
    have hsl : (goAppend rt (make 0 0 : Slice T) [x]).sliceTo (-1) = none := by
      simp [Slice.sliceTo]
    refine ⟨_, { items := goAppend rt (make 0 0) [x], capacity := 0 }, rfl, rfl, hlen, hto, ?_, ?_⟩
    · rw [hto]; exact hsl
    · rw [Append_eq_sliceTo rt _ x (by rw [hlen]; decide), hto, hsl]
      rfl

/-- Witness for C20: capacity 32 after 40 appends. -/
theorem C20_append_slice_in_bounds_witness :
    (1 : Int) ≤ 32 ∧
    ((∃ q0 q : CappedQueue Nat, NewCappedQueue 32 = some q0 ∧
      q0.appendAll exactRuntime (List.range 40) = some q ∧
      (q.items.len : Int) ≤ 32 ∧
      (q.items.len ≠ 0 → 0 ≤ q.appendTo ∧ q.appendTo ≤ (q.items.len : Int) ∧
        q.Append exactRuntime 7 = (q.items.sliceTo q.appendTo).map
          (fun tail => { q with items := goAppend exactRuntime (Slice.lit1 7) tail.elems })) ∧
      (q.Append exactRuntime 7).isSome = true) ∧
    (∃ q0 q1 : CappedQueue Nat, NewCappedQueue 0 = some q0 ∧
      q0.Append exactRuntime 7 = some q1 ∧
      q1.items.len = 1 ∧ q1.appendTo = -1 ∧ q1.items.sliceTo q1.appendTo = none ∧
      q1.Append exactRuntime 7 = none)) :=
  ⟨by decide, C20_append_slice_in_bounds exactRuntime 32 (by decide) (List.range 40) 7⟩

/-! ## Claims about the query parameters -/

/-- C15 fails on large values of `watch`: `Atoi` accepts 9223372037, the
product with `time.Second` wraps around and the timer is armed with a negative
duration; an out-of-range value is not defaulted to 10 seconds either, it is
clamped to the largest `int64` and wraps to minus one second. -/
theorem C15_watch_duration_wraps :
    Atoi "9223372037" = (9223372037, none) ∧
    watchSeconds "9223372037" = 9223372037 ∧
    watchDuration "9223372037" = -9223372036709551616 ∧
    watchDuration "9223372037" < 0 ∧
    Atoi "9223372036854775808" = (9223372036854775807, some .outOfRange) ∧
    watchDuration "9223372036854775808" = -1000000000 ∧
    watchDuration "" = 10000000000 ∧ watchDuration "-3" = 10000000000 ∧
    watchDuration "5" = 5000000000 := by
  refine ⟨?_, ?_, ?_, ?_, ?_, ?_, ?_, ?_, ?_⟩ <;> decide

/-- C16 fails on numeric values outside the `int64` range: the error of
`ParseInt` is dropped and the cursor is the clamped value it returns, not 0;
empty and non-numeric values do give 0. -/
theorem C16_out_of_range_version_is_clamped :
    ParseInt "9223372036854775808" = (9223372036854775807, some .outOfRange) ∧
    parseVersion "9223372036854775808" = 9223372036854775807 ∧
    parseVersion "9223372036854775808" ≠ 0 ∧
    parseVersion "-9223372036854775809" = -9223372036854775808 ∧
    parseVersion "" = 0 ∧ parseVersion "abc" = 0 ∧ parseVersion "42" = 42 ∧
    (updatesCheck NewServer "k" "9223372036854775808" "" false).map (fun r => r.1)
      = some (.waiting 0 9223372036854775807 10000000000 0) := by
  refine ⟨?_, ?_, ?_, ?_, ?_, ?_, ?_, ?_⟩ <;> decide

/-! ## More claims about the hub -/

/-- C18: when `key` has no entry in the hub, or its entry has no registration,
`Hub.Publish(key)` returns and the hub state is exactly what it was; no entry
is created. -/
theorem C18_publish_without_registrations (s : Hub) (key : String)
    (h : s.pubSubs.lookup key = none ∨ s.pubSubs.lookup key = some ⟨[]⟩) :
    s.Publish key = (.done, s) ∧
    (s.Publish key).2.pubSubs.lookup key = s.pubSubs.lookup key := by
  have h1 : s.Publish key = (.done, s) := by
    rcases h with h | h
    · simp [Hub.Publish, h]
    · simp [Hub.Publish, h, PubSub.publish, sendAll]
  exact ⟨h1, by rw [h1]⟩

/-- Witness for C18: a key whose only reader has unsubscribed. -/
theorem C18_publish_without_registrations_witness :
    (idleHub.pubSubs.lookup "k" = none ∨ idleHub.pubSubs.lookup "k" = some ⟨[]⟩) ∧
    (idleHub.Publish "k" = (.done, idleHub) ∧
    (idleHub.Publish "k").2.pubSubs.lookup "k" = idleHub.pubSubs.lookup "k") :=
  ⟨Or.inr (by decide), C18_publish_without_registrations idleHub "k" (Or.inr (by decide))⟩

/-! ## Store lemmas -/

theorem NewCappedQueue_32 [Inhabited T] :
    (NewCappedQueue 32 : Option (CappedQueue T)) = some ⟨make 0 32, 32⟩ := rfl

theorem QInv_fresh32 [Inhabited T] : QInv 32 [] (⟨make 0 32, 32⟩ : CappedQueue T) := by
  refine ⟨rfl, ?_, ?_⟩
  · simp [make, Slice.cap]
  · simp [make, Slice.elems]

theorem GetQueue_present [Inhabited T] (s : Store T) (key : String) (p : Nat)
    (h : s.m.lookup key = some p) : s.GetQueue key = some (p, s) := by
  simp [Store.GetQueue, NewCappedQueue_32, h]

theorem GetQueue_absent [Inhabited T] (s : Store T) (key : String)
    (h : s.m.lookup key = none) :
    s.GetQueue key = some (s.cells.length,
      ⟨s.cells ++ [⟨make 0 32, 32⟩], (key, s.cells.length) :: s.m⟩) := by
  simp [Store.GetQueue, NewCappedQueue_32, h]

theorem lookup_cons_ne {β : Type} (m : List (String × β)) (key k : String) (v : β)
    (hk : k ≠ key) : List.lookup k ((key, v) :: m) = List.lookup k m := by
  have h1 : (k == key) = false := by simpa using hk
  simp [List.lookup_cons, h1]

theorem Store_WF_lt (s : Store T) (hw : s.WF) (k : String) (p : Nat)
    (h : s.m.lookup k = some p) : p < s.cells.length := by
  obtain ⟨q, _, hq, _⟩ := hw.1 k p h
  exact (List.getElem?_eq_some_iff.mp hq).1

theorem WF_NewStore : (NewStore : Store T).WF := by
  refine ⟨?_, ?_⟩ <;> simp [NewStore]

theorem WF_GetQueue [Inhabited T] (s : Store T) (hw : s.WF) (key : String) :
    ∃ p s1, s.GetQueue key = some (p, s1) ∧ s1.WF ∧ s1.m.lookup key = some p := by
  cases h : s.m.lookup key with
  | some p => exact ⟨p, s, GetQueue_present s key p h, hw, h⟩
  | none =>
    refine ⟨_, _, GetQueue_absent s key h, ⟨?_, ?_⟩, by simp⟩
    · intro k p hp
      by_cases hk : k = key
      · subst hk
        simp only [List.lookup_cons, beq_self_eq_true, Option.some.injEq] at hp
        subst hp
        exact ⟨⟨make 0 32, 32⟩, [], by simp, QInv_fresh32⟩
      · simp only [lookup_cons_ne s.m key k _ hk] at hp
        obtain ⟨q, acc, hq, hinv⟩ := hw.1 k p hp
        refine ⟨q, acc, ?_, hinv⟩
        show (s.cells ++ _)[p]? = some q
        rw [List.getElem?_append_left (Store_WF_lt s hw k p hp)]
        exact hq
    · intro k1 k2 p h1 h2
      by_cases hk1 : k1 = key
      · by_cases hk2 : k2 = key
        · rw [hk1, hk2]
        · subst hk1
          simp only [List.lookup_cons, beq_self_eq_true, Option.some.injEq] at h1
          simp only [lookup_cons_ne s.m k1 k2 _ hk2] at h2
          have := Store_WF_lt s hw k2 p h2
          omega
      · by_cases hk2 : k2 = key
        · subst hk2
          simp only [List.lookup_cons, beq_self_eq_true, Option.some.injEq] at h2
          simp only [lookup_cons_ne s.m k2 k1 _ hk1] at h1
          have := Store_WF_lt s hw k1 p h1
          omega
        · simp only [lookup_cons_ne s.m key k1 _ hk1] at h1
          simp only [lookup_cons_ne s.m key k2 _ hk2] at h2
          exact hw.2 k1 k2 p h1 h2

theorem WF_Append [Inhabited T] (rt : GoRuntime) (s : Store T) (hw : s.WF) (key : String)
    (p : Nat) (hp : s.m.lookup key = some p) (x : T) :
    ∃ q acc q1, s.cells[p]? = some q ∧ QInv 32 acc q ∧ q.Append rt x = some q1 ∧
      QInv 32 (acc ++ [x]) q1 ∧
      s.Append rt p x = some { s with cells := s.cells.set p q1 } ∧
      ({ s with cells := s.cells.set p q1 } : Store T).WF := by
  obtain ⟨q, acc, hq, hinv⟩ := hw.1 key p hp
  obtain ⟨q1, hq1, hinv1⟩ := Append_inv rt 32 (by decide) acc q x hinv
  have hlt := Store_WF_lt s hw key p hp
  refine ⟨q, acc, q1, hq, hinv, hq1, hinv1, by simp [Store.Append, hq, hq1], ⟨?_, hw.2⟩⟩
  intro k p' hp'
  by_cases hpp : p' = p
  · subst hpp
    exact ⟨q1, acc ++ [x], by simp [List.getElem?_set, hlt], hinv1⟩
  · obtain ⟨q', acc', hq', hinv'⟩ := hw.1 k p' hp'
    refine ⟨q', acc', ?_, hinv'⟩
    show (s.cells.set p q1)[p']? = some q'
    simp [List.getElem?_set, Ne.symm hpp, hq']

theorem WF_Store_step [Inhabited T] (rt : GoRuntime) (s : Store T) (hw : s.WF)
    (a : StoreAction T) : ∃ s1, s.step rt a = some s1 ∧ s1.WF := by
  cases a with
  | get key =>
    obtain ⟨p, s1, h1, hw1, _⟩ := WF_GetQueue s hw key
    exact ⟨s1, by simp [Store.step, h1], hw1⟩
  | append key item =>
    obtain ⟨p, s1, h1, hw1, hp⟩ := WF_GetQueue s hw key
    obtain ⟨q, acc, q1, _, _, _, _, happ, hw2⟩ := WF_Append rt s1 hw1 key p hp item
    exact ⟨_, by simp [Store.step, h1, happ], hw2⟩

theorem WF_Store_run [Inhabited T] (rt : GoRuntime) (acts : List (StoreAction T)) :
    ∀ s s1 : Store T, s.WF → s.run rt acts = some s1 → s1.WF := by
  induction acts with
  | nil =>
    intro s s1 hw h
    simp only [Store.run, Option.some.injEq] at h
    exact h ▸ hw
  | cons a as ih =>
    intro s s1 hw h
    obtain ⟨s2, h2, hw2⟩ := WF_Store_step rt s hw a
    simp only [Store.run, h2] at h
    exact ih s2 s1 hw2 h

theorem WF_of_Store_Reachable [Inhabited T] (s : Store T) (h : s.Reachable) : s.WF := by
  obtain ⟨rt, acts, ha⟩ := h
  exact WF_Store_run rt acts NewStore s WF_NewStore ha

theorem demoStore_reachable : demoStore.Reachable :=
  ⟨exactRuntime, [.append "a" ⟨5, sendContent 5⟩, .get "b"], by decide⟩

/-! ## Claim about the store -/

/-- C17: in a reachable store, `GetQueue(key)` returns the pointer already
stored under `key` and leaves the store as it is; when there is none it stores
a fresh empty queue of capacity 32 and returns it.  A second `GetQueue(key)`
returns the same pointer and changes nothing, an item appended through the
first pointer is in the queue the second call returns, and the entries and
queues of all other keys stay as they were. -/
theorem C17_get_or_create [Inhabited T] (s : Store T) (key : String) (hs : s.Reachable) :
    (∀ p, s.m.lookup key = some p → s.GetQueue key = some (p, s)) ∧
    (s.m.lookup key = none → ∃ p s1, s.GetQueue key = some (p, s1) ∧
      s.deref p = none ∧ s1.deref p = some ⟨make 0 32, 32⟩ ∧
      (∀ p', p' ≠ p → s1.deref p' = s.deref p')) ∧
    (∃ p s1, s.GetQueue key = some (p, s1) ∧ s1.m.lookup key = some p ∧
      s1.GetQueue key = some (p, s1) ∧
      (∀ k, k ≠ key → s1.m.lookup k = s.m.lookup k ∧
        ∀ p', s.m.lookup k = some p' → p' ≠ p ∧ s1.deref p' = s.deref p') ∧
      (∀ (rt : GoRuntime) (x : T), ∃ q q1 s2, s1.deref p = some q ∧
        q.Append rt x = some q1 ∧ s1.Append rt p x = some s2 ∧
        s2.GetQueue key = some (p, s2) ∧ s2.deref p = some q1 ∧
        q1.items.elems.head? = some x ∧
        (∀ p', p' ≠ p → s2.deref p' = s1.deref p'))) := by
  have hw := WF_of_Store_Reachable s hs
  refine ⟨fun p hp => GetQueue_present s key p hp, ?_, ?_⟩
  · intro hn
    refine ⟨_, _, GetQueue_absent s key hn, ?_, ?_, ?_⟩
    · simp [Store.deref]
    · simp [Store.deref]
    · intro p' hp'
      simp only [Store.deref]
      by_cases hlt : p' < s.cells.length
      · rw [List.getElem?_append_left hlt]
      · have h1 : s.cells[p']? = none := List.getElem?_eq_none (by omega)
        rw [h1]
        apply List.getElem?_eq_none
        simp only [List.length_append, List.length_singleton]
        omega
  · obtain ⟨p, s1, h1, hw1, hp1⟩ := WF_GetQueue s hw key
    refine ⟨p, s1, h1, hp1, GetQueue_present s1 key p hp1, ?_, ?_⟩
    · intro k hk
      cases hn : s.m.lookup key with
      | some p0 =>
        rw [GetQueue_present s key p0 hn] at h1
        simp only [Option.some.injEq, Prod.mk.injEq] at h1
        obtain ⟨e1, e2⟩ := h1
        subst e1 e2
        refine ⟨rfl, fun p' hp' => ⟨?_, rfl⟩⟩
        intro e
        subst e
        exact hk (hw.2 k key p' hp' hn)
      | none =>
        rw [GetQueue_absent s key hn] at h1
        simp only [Option.some.injEq, Prod.mk.injEq] at h1
        obtain ⟨e1, e2⟩ := h1
        subst e1 e2
        refine ⟨lookup_cons_ne s.m key k _ hk, fun p' hp' => ?_⟩
        have hlt := Store_WF_lt s hw k p' hp'
        refine ⟨by omega, ?_⟩
        simp only [Store.deref]
        rw [List.getElem?_append_left hlt]
    · intro rt x
      obtain ⟨q, acc, q1, hq, hinv, hq1, hinv1, happ, hw2⟩ := WF_Append rt s1 hw1 key p hp1 x
      have hlt := Store_WF_lt s1 hw1 key p hp1
      refine ⟨q, q1, _, hq, hq1, happ, GetQueue_present _ key p hp1, ?_, ?_, ?_⟩
      · simp [Store.deref, List.getElem?_set, hlt]
      · rw [hinv1.2.2]
        simp
      · intro p' hp'
        simp [Store.deref, List.getElem?_set, Ne.symm hp']

/-- Witness for C17: key `a` of `demoStore`. -/
theorem C17_get_or_create_witness :
    demoStore.Reachable ∧
    ((∀ p, demoStore.m.lookup "a" = some p → demoStore.GetQueue "a" = some (p, demoStore)) ∧
    (demoStore.m.lookup "a" = none → ∃ p s1, demoStore.GetQueue "a" = some (p, s1) ∧
      demoStore.deref p = none ∧ s1.deref p = some ⟨make 0 32, 32⟩ ∧
      (∀ p', p' ≠ p → s1.deref p' = demoStore.deref p')) ∧
    (∃ p s1, demoStore.GetQueue "a" = some (p, s1) ∧ s1.m.lookup "a" = some p ∧
      s1.GetQueue "a" = some (p, s1) ∧
      (∀ k, k ≠ "a" → s1.m.lookup k = demoStore.m.lookup k ∧
        ∀ p', demoStore.m.lookup k = some p' → p' ≠ p ∧ s1.deref p' = demoStore.deref p') ∧
      (∀ (rt : GoRuntime) (x : Config), ∃ q q1 s2, s1.deref p = some q ∧
        q.Append rt x = some q1 ∧ s1.Append rt p x = some s2 ∧
        s2.GetQueue "a" = some (p, s2) ∧ s2.deref p = some q1 ∧
        q1.items.elems.head? = some x ∧
        (∀ p', p' ≠ p → s2.deref p' = s1.deref p')))) :=
  ⟨demoStore_reachable, C17_get_or_create demoStore "a" demoStore_reachable⟩

/-! ## The publish handler and the history -/

theorem mem_getUpdates (q : CappedQueue Config) (hwf : q.items.len ≤ q.items.cap)
    (u : Config) (hu : u ∈ q.items.elems) (V : Int) (hV : V < u.LastUpdated) :
    u ∈ getUpdates q V := by
  rw [getUpdates, Filter_eq_filter, Copy_eq q hwf, List.mem_filter]
  exact ⟨List.mem_append_left _ hu, by simpa using hV⟩

theorem sendStore_inv (rt : GoRuntime) (st : Store Config) (key : String) (now : Int)
    (acc : List Config) (hw : st.WF) (hh : HistOrNew st key acc) :
    ∃ p st2, sendStore rt st key now = some (p, st2) ∧ st2.WF ∧
      HistOrNew st2 key (acc ++ [sendConfig now]) := by
  obtain ⟨p, st1, h1, hw1, hp1⟩ := WF_GetQueue st hw key
  have hh1 : ∃ q, st1.cells[p]? = some q ∧ QInv 32 acc q := by
    cases hn : st.m.lookup key with
    | some p0 =>
      rw [GetQueue_present st key p0 hn] at h1
      simp only [Option.some.injEq, Prod.mk.injEq] at h1
      obtain ⟨e1, e2⟩ := h1
      subst e1 e2
      simpa [HistOrNew, hn] using hh
    | none =>
      rw [GetQueue_absent st key hn] at h1
      simp only [Option.some.injEq, Prod.mk.injEq] at h1
      obtain ⟨e1, e2⟩ := h1
      subst e1 e2
      have hacc : acc = [] := by simpa [HistOrNew, hn] using hh
      subst hacc
      exact ⟨⟨make 0 32, 32⟩, by simp, QInv_fresh32⟩
  obtain ⟨q, hq, hinv⟩ := hh1
  obtain ⟨q', _, q1', hq', _, hq1', _, happ, hw2⟩ :=
    WF_Append rt st1 hw1 key p hp1 (sendConfig now)
  obtain ⟨q1, hq1, hinv1⟩ := Append_inv rt 32 (by decide) acc q (sendConfig now) hinv
  have e : q' = q := by
    rw [hq] at hq'
    exact (Option.some.inj hq').symm
  subst e
  have e1 : q1' = q1 := by
    rw [hq1] at hq1'
    exact (Option.some.inj hq1').symm
  subst e1
  have hlt := Store_WF_lt st1 hw1 key p hp1
  refine ⟨p, _, ?_, hw2, ?_⟩
  · simp only [sendStore, h1]
    have happ' : st1.Append rt p ⟨now, sendContent now⟩
        = some { st1 with cells := st1.cells.set p q1' } := happ
    rw [happ']
  · simp only [HistOrNew, hp1]
    exact ⟨q1', by simp [List.getElem?_set, hlt], hinv1⟩

theorem sendStoreAll_inv (rt : GoRuntime) (key : String) (nows : List Int) :
    ∀ (st : Store Config) (acc : List Config), st.WF → HistOrNew st key acc →
      ∃ st1, sendStoreAll rt key st nows = some st1 ∧ st1.WF ∧
        HistOrNew st1 key (acc ++ nows.map sendConfig) := by
  induction nows with
  | nil =>
    intro st acc hw hh
    exact ⟨st, rfl, hw, by simpa using hh⟩
  | cons now nows ih =>
    intro st acc hw hh
    obtain ⟨p, st2, h2, hw2, hh2⟩ := sendStore_inv rt st key now acc hw hh
    obtain ⟨st3, h3, hw3, hh3⟩ := ih st2 _ hw2 hh2
    refine ⟨st3, ?_, hw3, by simpa using hh3⟩
    simp only [sendStoreAll, h2, h3]

theorem history_of_HistOrNew (st : Store Config) (key : String) (acc : List Config)
    (hh : HistOrNew st key acc) : st.history key = acc.reverse.take 32 := by
  unfold HistOrNew at hh
  unfold Store.history
  split at hh
  · subst hh; simp
  · obtain ⟨q, hq, hinv⟩ := hh
    simp only [hq]
    exact hinv.2.2

theorem getUpdates_of_HistOrNew (st : Store Config) (key : String) (acc : List Config)
    (hh : HistOrNew st key acc) (u : Config) (hu : u ∈ st.history key) (V : Int)
    (hV : V < u.LastUpdated) :
    ∃ q ret, st.GetQueue key = some (q, st) ∧ st.getUpdates q V = some ret ∧ u ∈ ret := by
  unfold HistOrNew at hh
  unfold Store.history at hu
  split at hh
  · rename_i hn
    simp [hn] at hu
  · rename_i p hp
    obtain ⟨q, hq, hinv⟩ := hh
    simp only [hp, hq] at hu
    exact ⟨p, getUpdates q V, GetQueue_present st key p hp, by simp [Store.getUpdates, hq],
      mem_getUpdates q hinv.2.1 u hu V hV⟩

theorem HistOrNew_NewStore (key : String) : HistOrNew NewStore key [] := by
  simp [HistOrNew, NewStore]

theorem versions_of_sendConfig (nows : List Int) :
    ((nows.map sendConfig).reverse.take 32).map Config.LastUpdated = nows.reverse.take 32 := by
  rw [List.map_take, List.map_reverse, List.map_map]
  have : (Config.LastUpdated ∘ sendConfig) = id := rfl
  rw [this, List.map_id]

/-- C12 fails for equal clock readings: two `/send` calls in the same
millisecond (readings 5 and 5, a non-decreasing sequence) store two updates
with the same version, and a reader whose cursor is that version gets nothing
although the second update was published later and is stored. -/
theorem C12_equal_readings_repeat_versions :
    ([5, 5] : List Int).Pairwise (fun a b => a ≤ b) ∧
    (sendStoreAll exactRuntime "k" NewStore [5, 5]).map
      (fun st => (st.history "k").map Config.LastUpdated) = some [5, 5] ∧
    ¬ ([5, 5] : List Int).Nodup ∧
    ¬ ([5, 5] : List Int).Pairwise (fun a b => a > b) ∧
    (sendStoreAll exactRuntime "k" NewStore [5, 5]).bind
      (fun st => st.getUpdates 0 5) = some [] := by
  refine ⟨?_, ?_, ?_, ?_, ?_⟩ <;> decide

/-- C12 as amended: for `/send` calls on one key whose clock readings are
strictly increasing, all calls store their update, the stored versions are the
newest 32 readings, pairwise distinct and strictly decreasing from newest to
oldest, and a reader whose cursor is the reading `v` of some publish gets from
`getUpdates` every stored update of a later publish. -/
theorem C12_versions_strictly_decreasing (rt : GoRuntime) (key : String) (nows : List Int)
    (h : nows.Pairwise (fun a b => a < b)) :
    ∃ st, sendStoreAll rt key NewStore nows = some st ∧
      (st.history key).map Config.LastUpdated = nows.reverse.take 32 ∧
      ((st.history key).map Config.LastUpdated).Pairwise (fun a b => a > b) ∧
      ((st.history key).map Config.LastUpdated).Nodup ∧
      (∀ pre v post, nows = pre ++ v :: post → ∀ u ∈ st.history key,
        u.LastUpdated ∈ post →
        ∃ q ret, st.GetQueue key = some (q, st) ∧ st.getUpdates q v = some ret ∧ u ∈ ret) := by
  obtain ⟨st, hst, hw, hh⟩ :=
    sendStoreAll_inv rt key nows NewStore [] WF_NewStore (HistOrNew_NewStore key)
  simp only [List.nil_append] at hh
  have hv : (st.history key).map Config.LastUpdated = nows.reverse.take 32 := by
    rw [history_of_HistOrNew st key _ hh, versions_of_sendConfig]
  have hp : (nows.reverse.take 32).Pairwise (fun a b => a > b) := by
    apply List.Pairwise.sublist (List.take_sublist _ _)
    rw [List.pairwise_reverse]
    exact h
  refine ⟨st, hst, hv, by rw [hv]; exact hp, ?_, ?_⟩
  · rw [hv]
    exact hp.imp (fun hab e => by omega)
  · intro pre v post hn u hu hmem
    apply getUpdates_of_HistOrNew st key _ hh u hu v
    rw [hn, List.pairwise_append] at h
    exact List.rel_of_pairwise_cons h.2.1 hmem

/-- Witness for C12: readings 1, 2, 3 on key `k`. -/
theorem C12_versions_strictly_decreasing_witness :
    ([1, 2, 3] : List Int).Pairwise (fun a b => a < b) ∧
    ∃ st, sendStoreAll exactRuntime "k" NewStore [1, 2, 3] = some st ∧
      (st.history "k").map Config.LastUpdated = ([1, 2, 3] : List Int).reverse.take 32 ∧
      ((st.history "k").map Config.LastUpdated).Pairwise (fun a b => a > b) ∧
      ((st.history "k").map Config.LastUpdated).Nodup ∧
      (∀ pre v post, ([1, 2, 3] : List Int) = pre ++ v :: post → ∀ u ∈ st.history "k",
        u.LastUpdated ∈ post →
        ∃ q ret, st.GetQueue "k" = some (q, st) ∧ st.getUpdates q v = some ret ∧ u ∈ ret) :=
  ⟨by decide, C12_versions_strictly_decreasing exactRuntime "k" [1, 2, 3] (by decide)⟩

/-! ## Publish reaches the registered signals -/

theorem sendAll_done_mem (cs : List Nat) (c : Nat) (hnd : cs.Nodup) (hc : c ∈ cs) :
    ∀ h : Heap, h[c]? = some ⟨0, false⟩ → (sendAll h cs).1 = .done →
      (sendAll h cs).2[c]? = some ⟨1, false⟩ := by
  induction cs with
  | nil => simp at hc
  | cons d cs ih =>
    intro h h0 hdone
    obtain ⟨hnot, hnd1⟩ := List.nodup_cons.mp hnd
    rw [sendAll] at hdone ⊢
    split at hdone
    · rename_i h1 heq
      rcases List.mem_cons.mp hc with e | e
      · subst e
        rw [sendAll_not_mem cs c hnot h1]
        have := (chanSend_empty h c h0).2
        rw [heq] at this
        exact this
      · have hne : c ≠ d := fun e1 => hnot (e1 ▸ e)
        have hk := chanSend_ne h d c hne
        rw [heq] at hk
        exact ih hnd1 e h1 (hk.trans h0) hdone
    · rename_i r hne
      exact absurd (Prod.ext_iff.mpr ⟨hdone, rfl⟩ : chanSend h d = (Status.done, (chanSend h d).2))
        (hne (chanSend h d).2)

theorem no_lost_publish_of_return (rt : GoRuntime) (st : Store Config) (s : Hub)
    (key : String) (acc : List Config) (V now : Int) (hV : V < now)
    (hst : st.WF) (hh : HistOrNew st key acc) (hs : s.WF)
    (hret : (sendHandler rt ⟨st, (s.Subscribe key).2⟩ key now).1 = .done) :
    (sendHandler rt ⟨st, (s.Subscribe key).2⟩ key now).2.hub.pending (s.Subscribe key).1
      = some 1 ∧
    ∃ q ret, (sendHandler rt ⟨st, (s.Subscribe key).2⟩ key now).2.store.GetQueue key
        = some (q, (sendHandler rt ⟨st, (s.Subscribe key).2⟩ key now).2.store) ∧
      (sendHandler rt ⟨st, (s.Subscribe key).2⟩ key now).2.store.getUpdates q V = some ret ∧
      sendConfig now ∈ ret := by
  obtain ⟨p, st2, h2, hw2, hh2⟩ := sendStore_inv rt st key now acc hst hh
  have hw1 := WF_Subscribe s hs key
  have hsh : sendHandler rt ⟨st, (s.Subscribe key).2⟩ key now
      = (((s.Subscribe key).2.Publish key).1, ⟨st2, ((s.Subscribe key).2.Publish key).2⟩) := by
    simp only [sendHandler, h2]
  rw [hsh] at hret ⊢
  have hret1 : ((s.Subscribe key).2.Publish key).1 = .done := hret
  constructor
  · obtain ⟨e1, e2⟩ := Publish_eq (s.Subscribe key).2 key
    have hc : (s.Subscribe key).1 ∈ (s.Subscribe key).2.registered key := by
      rw [Subscribe_registered, if_pos rfl, Subscribe_fst]
      exact List.mem_append_right _ (List.mem_singleton_self _)
    have h0 : (s.Subscribe key).2.heap[(s.Subscribe key).1]? = some ⟨0, false⟩ := by
      rw [Subscribe_heap, Subscribe_fst]
      simp
    have := sendAll_done_mem _ _ (hw1.2.1 key) hc _ h0 (e1 ▸ hret1)
    simp only [Hub.pending, e2, this, Option.map_some']
  · have hu : sendConfig now ∈ st2.history key := by
      rw [history_of_HistOrNew st2 key _ hh2]
      simp
    exact getUpdates_of_HistOrNew st2 key _ hh2 _ hu V hV

/-- C11 fails when another signal of the key still holds a notification: after
`Subscribe(k); Publish(k)` a reader subscribes (channel 1, empty buffer) and the
publish handler runs with reading 7; it appends the update, but `Hub.Publish`
stops at the full channel 0 and the reader's channel gets no notification. -/
theorem C11_publish_stops_before_reader :
    NewHub.run [.subscribe "k", .publish "k"] = (.done, ⟨[⟨1, false⟩], [("k", ⟨[0]⟩)]⟩) ∧
    (Hub.Subscribe ⟨[⟨1, false⟩], [("k", ⟨[0]⟩)]⟩ "k")
      = (1, ⟨[⟨1, false⟩, ⟨0, false⟩], [("k", ⟨[0, 1]⟩)]⟩) ∧
    (sendHandler exactRuntime ⟨NewStore, ⟨[⟨1, false⟩, ⟨0, false⟩], [("k", ⟨[0, 1]⟩)]⟩⟩
      "k" 7).1 = .blocked ∧
    (sendHandler exactRuntime ⟨NewStore, ⟨[⟨1, false⟩, ⟨0, false⟩], [("k", ⟨[0, 1]⟩)]⟩⟩
      "k" 7).2.hub.pending 1 = some 0 ∧
    (sendHandler exactRuntime ⟨NewStore, ⟨[⟨1, false⟩, ⟨0, false⟩], [("k", ⟨[0, 1]⟩)]⟩⟩
      "k" 7).2.store.history "k" = [sendConfig 7] := by
  refine ⟨?_, ?_, ?_, ?_, ?_⟩ <;> decide

/-! ## The invariant under all calls -/

theorem chanClose_self (h : Heap) (c : Nat) (ch : Chan) (hc : h[c]? = some ch)
    (ho : ch.closed = false) : (chanClose h c).2[c]? = some { ch with closed := true } := by
  have hlt : c < h.length := (List.getElem?_eq_some_iff.mp hc).1
  simp [chanClose, hc, ho, List.getElem?_set, hlt]

theorem closed_false_of_map_eq (h h1 : Heap) (c : Nat) (ch : Chan)
    (he : (h1[c]?).map Chan.closed = (h[c]?).map Chan.closed)
    (h1c : h1[c]? = some ch) (ho : ch.closed = false) :
    ∃ ch0, h[c]? = some ch0 ∧ ch0.closed = false :=
  open_of_closed_eq h1 h c he.symm ⟨ch, h1c, ho⟩

theorem OpenRegistered_NewHub : NewHub.OpenRegistered := by
  intro c ch hc
  simp [NewHub] at hc

theorem OpenRegistered_step (s : Hub) (hw : s.WF) (ho : s.OpenRegistered) (a : Action) :
    (s.step a).2.OpenRegistered := by
  cases a with
  | subscribe key =>
    intro c ch hc hcl
    change (s.Subscribe key).2.heap[c]? = some ch at hc
    change ∃ k, c ∈ (s.Subscribe key).2.registered k
    rw [Subscribe_heap] at hc
    by_cases hlt : c < s.heap.length
    · rw [List.getElem?_append_left hlt] at hc
      obtain ⟨k, hk⟩ := ho c ch hc hcl
      refine ⟨k, ?_⟩
      rw [Subscribe_registered]
      split
      · rename_i e
        subst e
        exact List.mem_append_left _ hk
      · exact hk
    · have hlen : c < (s.heap ++ [(⟨0, false⟩ : Chan)]).length :=
        (List.getElem?_eq_some_iff.mp hc).1
      simp only [List.length_append, List.length_singleton] at hlen
      have e : c = s.heap.length := by omega
      subst e
      refine ⟨key, ?_⟩
      rw [Subscribe_registered, if_pos rfl]
      exact List.mem_append_right _ (List.mem_singleton_self _)
  | unsubscribe key d =>
    intro c ch hc hcl
    change (s.unsubscribe key d).2.heap[c]? = some ch at hc
    change ∃ k, c ∈ (s.unsubscribe key d).2.registered k
    by_cases hd : d ∈ s.registered key
    · obtain ⟨_, hheap, hreg⟩ := unsubscribe_mem s key d hd
      rw [hheap] at hc
      by_cases hcd : c = d
      · subst hcd
        obtain ⟨ch0, hch0, hcl0⟩ := hw.1 key c hd
        rw [chanClose_self s.heap c ch0 hch0 hcl0] at hc
        simp only [Option.some.injEq] at hc
        rw [← hc] at hcl
        simp at hcl
      · rw [chanClose_ne s.heap d c hcd] at hc
        obtain ⟨k, hk⟩ := ho c ch hc hcl
        refine ⟨k, ?_⟩
        rw [hreg k]
        split
        · rename_i e
          subst e
          exact (List.mem_erase_of_ne hcd).mpr hk
        · exact hk
    · rw [unsubscribe_not_mem s key d hd] at hc ⊢
      exact ho c ch hc hcl
  | publish key =>
    intro c ch hc hcl
    change (s.Publish key).2.heap[c]? = some ch at hc
    change ∃ k, c ∈ (s.Publish key).2.registered k
    rw [(Publish_eq s key).2] at hc
    obtain ⟨ch0, hch0, hcl0⟩ :=
      closed_false_of_map_eq s.heap _ c ch (sendAll_closed _ c s.heap) hc hcl
    obtain ⟨k, hk⟩ := ho c ch0 hch0 hcl0
    exact ⟨k, by rw [Publish_registered]; exact hk⟩
  | recv d =>
    intro c ch hc hcl
    change (chanRecv s.heap d).2[c]? = some ch at hc
    obtain ⟨ch0, hch0, hcl0⟩ :=
      closed_false_of_map_eq s.heap _ c ch (chanRecv_closed s.heap d c) hc hcl
    exact ho c ch0 hch0 hcl0

theorem exec_inv (acts : List Action) :
    ∀ s : Hub, s.WF → s.OpenRegistered → (s.exec acts).WF ∧ (s.exec acts).OpenRegistered := by
  induction acts with
  | nil => intro s hw ho; exact ⟨hw, ho⟩
  | cons a as ih =>
    intro s hw ho
    exact ih _ (WF_step s hw a) (OpenRegistered_step s hw ho a)

theorem sendAll_no_panic (cs : List Nat) :
    ∀ h : Heap, (∀ c ∈ cs, ∃ ch, h[c]? = some ch ∧ ch.closed = false) →
      (sendAll h cs).1 ≠ .panicked := by
  induction cs with
  | nil => intro h _; simp [sendAll]
  | cons c cs ih =>
    intro h hall
    obtain ⟨ch, hch, hcl⟩ := hall c (List.mem_cons_self _ _)
    have hne : (chanSend h c).1 ≠ .panicked := by
      by_cases hb : ch.buf < chanCap <;> simp [chanSend, hch, hcl, hb]
    rw [sendAll]
    split
    · rename_i h1 heq
      apply ih
      intro d hd
      have hk := chanSend_closed h c d
      rw [heq] at hk
      exact open_of_closed_eq h h1 d hk (hall d (List.mem_cons_of_mem _ hd))
    · exact hne

theorem unsubscribe_done (s : Hub) (hw : s.WF) (key : String) (c : Nat) :
    (s.unsubscribe key c).1 = .done := by
  by_cases hc : c ∈ s.registered key
  · obtain ⟨ch, hch, hcl⟩ := hw.1 key c hc
    rw [(unsubscribe_mem s key c hc).1]
    exact chanClose_open s.heap c ch hch hcl
  · rw [unsubscribe_not_mem s key c hc]

/-- C19: after any sequence of subscribe, unsubscribe, publish and receive
calls (also calls that did not return), the channels registered under a key
are pairwise distinct and open, no channel is registered under two keys, a
channel of the heap is closed exactly when it is registered nowhere, and so
`Publish` never panics and every unsubscribe function returns. -/
theorem C19_registered_channels_distinct_and_open (acts : List Action) :
    (∀ k, ((NewHub.exec acts).registered k).Nodup) ∧
    (∀ k c, c ∈ (NewHub.exec acts).registered k →
      ∃ ch, (NewHub.exec acts).heap[c]? = some ch ∧ ch.closed = false) ∧
    (∀ k1 k2 c, c ∈ (NewHub.exec acts).registered k1 →
      c ∈ (NewHub.exec acts).registered k2 → k1 = k2) ∧
    (∀ c ch, (NewHub.exec acts).heap[c]? = some ch →
      (ch.closed = true ↔ ∀ k, c ∉ (NewHub.exec acts).registered k)) ∧
    (∀ k, ((NewHub.exec acts).Publish k).1 ≠ .panicked) ∧
    (∀ k c, ((NewHub.exec acts).unsubscribe k c).1 = .done) := by
  obtain ⟨hw, ho⟩ := exec_inv acts NewHub WF_NewHub OpenRegistered_NewHub
  refine ⟨hw.2.1, hw.1, hw.2.2, ?_, ?_, ?_⟩
  · intro c ch hc
    constructor
    · intro hcl k hk
      obtain ⟨ch1, hch1, hcl1⟩ := hw.1 k c hk
      rw [hc] at hch1
      simp only [Option.some.injEq] at hch1
      rw [hch1, hcl1] at hcl
      simp at hcl
    · intro hn
      cases hcl : ch.closed with
      | true => rfl
      | false =>
        obtain ⟨k, hk⟩ := ho c ch hc hcl
        exact absurd hk (hn k)
  · intro k
    rw [(Publish_eq _ k).1]
    exact sendAll_no_panic _ _ (hw.1 k)
  · intro k c
    exact unsubscribe_done _ hw k c

/-! ## The update handler -/

theorem recv_registered (s : Hub) (c : Nat) (k : String) :
    (s.recv c).2.registered k = s.registered k := rfl

theorem updatesSelect_timeout (sv : Server) (key : String) (q : Nat) (lastUpdated : Int)
    (ch : Nat) (encodeErr : Bool) :
    updatesSelect sv key q lastUpdated ch .timeout encodeErr
      = ((sv.hub.unsubscribe key ch).1, some ⟨204, .empty⟩,
          ⟨sv.store, (sv.hub.unsubscribe key ch).2⟩) := rfl

theorem updatesSelect_cancelled (sv : Server) (key : String) (q : Nat) (lastUpdated : Int)
    (ch : Nat) (encodeErr : Bool) :
    updatesSelect sv key q lastUpdated ch .cancelled encodeErr
      = ((sv.hub.unsubscribe key ch).1, some ⟨408, .text "timeout"⟩,
          ⟨sv.store, (sv.hub.unsubscribe key ch).2⟩) := rfl

theorem updatesSelect_signal (sv : Server) (key : String) (q : Nat) (lastUpdated : Int)
    (ch : Nat) (encodeErr : Bool) (ret : List Config)
    (hr : (sv.hub.recv ch).1 = .done) (hg : sv.store.getUpdates q lastUpdated = some ret) :
    updatesSelect sv key q lastUpdated ch .signal encodeErr
      = (((sv.hub.recv ch).2.unsubscribe key ch).1,
          some (if ret.length = 0 then ⟨204, .empty⟩ else respondJSON ret encodeErr),
          ⟨sv.store, ((sv.hub.recv ch).2.unsubscribe key ch).2⟩) := by
  have he : sv.hub.recv ch = (.done, (sv.hub.recv ch).2) := Prod.ext_iff.mpr ⟨hr, rfl⟩
  simp only [updatesSelect]
  rw [he]
  simp only [hg]

theorem updatesSelect_signal_waits (sv : Server) (key : String) (q : Nat) (lastUpdated : Int)
    (ch : Nat) (encodeErr : Bool) (hr : (sv.hub.recv ch).1 ≠ .done) :
    updatesSelect sv key q lastUpdated ch .signal encodeErr
      = ((sv.hub.recv ch).1, none, ⟨sv.store, (sv.hub.recv ch).2⟩) := by
  simp only [updatesSelect]

/-- C13: the handler first computes `getUpdates(cursor)`; if the list is not
empty it responds with it with status 200 and leaves the hub untouched, so no
subscription is registered; otherwise it subscribes and takes exactly one case
of its `select`: on a signal it recomputes `getUpdates(cursor)` and responds
204 with empty body if the list is empty and with the list otherwise, on
timeout it responds 204 with empty body, on cancellation 408; each case ends
the handler with its response, and the signal case is taken only when the
channel holds a value.  The responses are those of a successful `Encode`. -/
theorem C13_update_handler_outcome (sv : Server) (key version watch : String)
    (hst : sv.store.Reachable) :
    ∃ q st ret, sv.store.GetQueue key = some (q, st) ∧
      st.getUpdates q (parseVersion version) = some ret ∧
      (ret ≠ [] → updatesCheck sv key version watch false
        = some (.responded ⟨200, .json ret⟩, ⟨st, sv.hub⟩)) ∧
      (ret = [] → updatesCheck sv key version watch false
        = some (.waiting q (parseVersion version) (watchDuration watch)
            (sv.hub.Subscribe key).1, ⟨st, (sv.hub.Subscribe key).2⟩)) ∧
      (∀ (sv2 : Server) (ch : Nat) (ret2 : List Config), sv2.hub.Reachable →
        sv2.store.getUpdates q (parseVersion version) = some ret2 →
        (∃ hub3, updatesSelect sv2 key q (parseVersion version) ch .timeout false
          = (.done, some ⟨204, .empty⟩, ⟨sv2.store, hub3⟩)) ∧
        (∃ hub3, updatesSelect sv2 key q (parseVersion version) ch .cancelled false
          = (.done, some ⟨408, .text "timeout"⟩, ⟨sv2.store, hub3⟩)) ∧
        ((sv2.hub.recv ch).1 = .done →
          ∃ hub3, updatesSelect sv2 key q (parseVersion version) ch .signal false
            = (.done, some (if ret2 = [] then ⟨204, .empty⟩ else ⟨200, .json ret2⟩),
                ⟨sv2.store, hub3⟩)) ∧
        ((sv2.hub.recv ch).1 ≠ .done →
          (updatesSelect sv2 key q (parseVersion version) ch .signal false).2.1 = none)) := by
  have hw := WF_of_Store_Reachable sv.store hst
  obtain ⟨q, st, hq, hw1, hp⟩ := WF_GetQueue sv.store hw key
  obtain ⟨qq, _, hqq, _⟩ := hw1.1 key q hp
  have hg : st.getUpdates q (parseVersion version) = some (getUpdates qq (parseVersion version)) := by
    simp [Store.getUpdates, hqq]
  refine ⟨q, st, _, hq, hg, ?_, ?_, ?_⟩
  · intro hne
    have hpos : (getUpdates qq (parseVersion version)).length > 0 :=
      List.length_pos.mpr hne
    simp only [updatesCheck, hq, hg, hpos, ↓reduceIte]
    rfl
  · intro he
    have hpos : ¬ (getUpdates qq (parseVersion version)).length > 0 := by
      rw [he]; simp
    simp only [updatesCheck, hq, hg, hpos, ↓reduceIte]
  · intro sv2 ch ret2 hh2 hg2
    have hw2 := WF_of_Reachable sv2.hub hh2
    refine ⟨?_, ?_, ?_, ?_⟩
    · refine ⟨(sv2.hub.unsubscribe key ch).2, ?_⟩
      rw [updatesSelect_timeout, unsubscribe_done sv2.hub hw2 key ch]
    · refine ⟨(sv2.hub.unsubscribe key ch).2, ?_⟩
      rw [updatesSelect_cancelled, unsubscribe_done sv2.hub hw2 key ch]
    · intro hr
      refine ⟨((sv2.hub.recv ch).2.unsubscribe key ch).2, ?_⟩
      rw [updatesSelect_signal sv2 key q _ ch false ret2 hr hg2,
        unsubscribe_done _ (WF_recv sv2.hub hw2 ch) key ch]
      simp only [List.length_eq_zero]
      rfl
    · intro hr
      rw [updatesSelect_signal_waits sv2 key q _ ch false hr]

/-- Witness for C13: key `a` of `demoStore`. -/
theorem C13_update_handler_outcome_witness :
    demoStore.Reachable ∧
    ∃ q st ret, (⟨demoStore, demoHub⟩ : Server).store.GetQueue "a" = some (q, st) ∧
      st.getUpdates q (parseVersion "0") = some ret ∧
      (ret ≠ [] → updatesCheck ⟨demoStore, demoHub⟩ "a" "0" "3" false
        = some (.responded ⟨200, .json ret⟩, ⟨st, (⟨demoStore, demoHub⟩ : Server).hub⟩)) ∧
      (ret = [] → updatesCheck ⟨demoStore, demoHub⟩ "a" "0" "3" false
        = some (.waiting q (parseVersion "0") (watchDuration "3")
            ((⟨demoStore, demoHub⟩ : Server).hub.Subscribe "a").1,
            ⟨st, ((⟨demoStore, demoHub⟩ : Server).hub.Subscribe "a").2⟩)) ∧
      (∀ (sv2 : Server) (ch : Nat) (ret2 : List Config), sv2.hub.Reachable →
        sv2.store.getUpdates q (parseVersion "0") = some ret2 →
        (∃ hub3, updatesSelect sv2 "a" q (parseVersion "0") ch .timeout false
          = (.done, some ⟨204, .empty⟩, ⟨sv2.store, hub3⟩)) ∧
        (∃ hub3, updatesSelect sv2 "a" q (parseVersion "0") ch .cancelled false
          = (.done, some ⟨408, .text "timeout"⟩, ⟨sv2.store, hub3⟩)) ∧
        ((sv2.hub.recv ch).1 = .done →
          ∃ hub3, updatesSelect sv2 "a" q (parseVersion "0") ch .signal false
            = (.done, some (if ret2 = [] then ⟨204, .empty⟩ else ⟨200, .json ret2⟩),
                ⟨sv2.store, hub3⟩)) ∧
        ((sv2.hub.recv ch).1 ≠ .done →
          (updatesSelect sv2 "a" q (parseVersion "0") ch .signal false).2.1 = none)) :=
  ⟨demoStore_reachable,
    C13_update_handler_outcome ⟨demoStore, demoHub⟩ "a" "0" "3" demoStore_reachable⟩

/-! ## The handler's registration -/

theorem unsubscribe_registered_filter (s : Hub) (hw : s.WF) (key : String) (c : Nat)
    (k : String) :
    (s.unsubscribe key c).2.registered k
      = if k = key then (s.registered key).filter (fun d => d ≠ c) else s.registered k := by
  have hf : ∀ l : List Nat, l.Nodup → l.erase c = l.filter (fun d => d ≠ c) := by
    intro l hl
    rw [hl.erase_eq_filter]
    congr 1
    funext d
    by_cases hd : d = c <;> simp [hd]
  by_cases hc : c ∈ s.registered key
  · rw [(unsubscribe_mem s key c hc).2.2 k]
    split
    · rw [hf _ (hw.2.1 key)]
    · rfl
  · rw [unsubscribe_not_mem s key c hc]
    split
    · rename_i e
      subst e
      rw [← hf _ (hw.2.1 k), List.erase_of_not_mem hc]
    · rfl

theorem registered_congr (s s1 : Hub) (h : s1.pubSubs = s.pubSubs) (k : String) :
    s1.registered k = s.registered k := by
  simp only [Hub.registered, h]

theorem run_notifies_pubSubs (acts : List Action) :
    ∀ s s2 : Hub, (∀ a ∈ acts, a.notifies = true) → s.run acts = (.done, s2) →
      s2.pubSubs = s.pubSubs := by
  induction acts with
  | nil =>
    intro s s2 _ h
    simp only [Hub.run, Prod.mk.injEq, true_and] at h
    rw [h]
  | cons a as ih =>
    intro s s2 hn h
    have h1 := (run_cons_done s s2 a as h).2
    have h2 := ih _ s2 (fun b hb => hn b (List.mem_cons_of_mem _ hb)) h1
    rw [h2]
    have ha := hn a (List.mem_cons_self _ _)
    cases a with
    | subscribe key => simp [Action.notifies] at ha
    | unsubscribe key c => simp [Action.notifies] at ha
    | publish key => exact Publish_pubSubs s key
    | recv c => rfl

theorem handler_exit (s s2 hubE : Hub) (key : String) (acts : List Action) (hs : s.WF)
    (hrun : (s.Subscribe key).2.run acts = (.done, s2)) (hwE : hubE.WF)
    (hreg : ∀ k, hubE.registered k = s2.registered k) :
    (s.Subscribe key).1 ∉ (hubE.unsubscribe key (s.Subscribe key).1).2.registered key ∧
    (∀ k, (hubE.unsubscribe key (s.Subscribe key).1).2.registered k
      = (s2.registered k).filter (fun d => d ≠ (s.Subscribe key).1)) ∧
    ((∀ a ∈ acts, a.notifies = true) →
      ∀ k, (hubE.unsubscribe key (s.Subscribe key).1).2.registered k = s.registered k) := by
  have hfresh : ∀ k, s.heap.length ∉ s.registered k :=
    fun k hm => Nat.lt_irrefl _ (WF_lt s hs k _ hm)
  have hall : ∀ k, (hubE.unsubscribe key (s.Subscribe key).1).2.registered k
      = (s2.registered k).filter (fun d => d ≠ (s.Subscribe key).1) := by
    intro k
    rw [unsubscribe_registered_filter hubE hwE key _ k]
    split
    · rename_i e
      subst e
      rw [hreg]
    · rename_i hk
      rw [hreg k]
      symm
      rw [List.filter_eq_self]
      intro d hd
      have hg : (s.Subscribe key).1 < (s.Subscribe key).2.heap.length ∧
          (s.Subscribe key).1 ∉ (s.Subscribe key).2.registered k := by
        rw [Subscribe_fst, Subscribe_heap, Subscribe_registered, if_neg hk]
        exact ⟨by simp, hfresh k⟩
      have hg2 := (gone_run k _ acts _ s2 hg hrun).2
      have hne : d ≠ (s.Subscribe key).1 := fun e => hg2 (e ▸ hd)
      simpa using hne
  refine ⟨?_, hall, ?_⟩
  · rw [hall key]
    intro hm
    have := (List.mem_filter.mp hm).2
    simp at this
  · intro hn k
    rw [hall k, registered_congr _ _ (run_notifies_pubSubs acts _ s2 hn hrun) k,
      Subscribe_registered, Subscribe_fst]
    split
    · rename_i e
      subst e
      rw [List.filter_append]
      have h1 : List.filter (fun d => decide (d ≠ s.heap.length)) (s.registered k)
          = s.registered k := by
        rw [List.filter_eq_self]
        intro d hd
        have hne : d ≠ s.heap.length := fun e => hfresh k (e ▸ hd)
        simpa using hne
      rw [h1]
      simp
    · rw [List.filter_eq_self]
      intro d hd
      have hne : d ≠ s.heap.length := fun e => hfresh k (e ▸ hd)
      simpa using hne

/-- C14: a handler that subscribed on `key` in a reachable hub state and then
leaves its `select` (on timeout, on cancellation, or on a signal with or
without data and with or without an encoding failure) returns, and when it has
returned its channel is registered nowhere and every other registration is as
it was; if the calls made meanwhile were only publishes and receives, every
key's registration list equals the list before the handler subscribed. -/
theorem C14_registration_removed_on_exit (s s2 : Hub) (key : String) (acts : List Action)
    (st : Store Config) (q : Nat) (lastUpdated : Int) (ev : WaitEvent) (encodeErr : Bool)
    (hs : s.Reachable) (hrun : (s.Subscribe key).2.run acts = (.done, s2)) :
    (ev ≠ .signal →
      (updatesSelect ⟨st, s2⟩ key q lastUpdated (s.Subscribe key).1 ev encodeErr).1 = .done) ∧
    (ev = .signal → (s2.recv (s.Subscribe key).1).1 = .done →
      (∃ ret, st.getUpdates q lastUpdated = some ret) →
      (updatesSelect ⟨st, s2⟩ key q lastUpdated (s.Subscribe key).1 ev encodeErr).1 = .done) ∧
    ((updatesSelect ⟨st, s2⟩ key q lastUpdated (s.Subscribe key).1 ev encodeErr).1 = .done →
      (s.Subscribe key).1 ∉
        (updatesSelect ⟨st, s2⟩ key q lastUpdated (s.Subscribe key).1 ev
          encodeErr).2.2.hub.registered key ∧
      (∀ k, (updatesSelect ⟨st, s2⟩ key q lastUpdated (s.Subscribe key).1 ev
          encodeErr).2.2.hub.registered k
        = (s2.registered k).filter (fun d => d ≠ (s.Subscribe key).1)) ∧
      ((∀ a ∈ acts, a.notifies = true) →
        ∀ k, (updatesSelect ⟨st, s2⟩ key q lastUpdated (s.Subscribe key).1 ev
          encodeErr).2.2.hub.registered k = s.registered k)) := by
  have hw := WF_of_Reachable s hs
  have hw2 : s2.WF := WF_run acts _ s2 (WF_Subscribe s hw key) hrun
  have hwr : (s2.recv (s.Subscribe key).1).2.WF := WF_recv s2 hw2 _
  cases ev with
  | timeout =>
    rw [updatesSelect_timeout]
    exact ⟨fun _ => unsubscribe_done s2 hw2 key _, fun h => by simp at h,
      fun _ => handler_exit s s2 s2 key acts hw hrun hw2 (fun _ => rfl)⟩
  | cancelled =>
    rw [updatesSelect_cancelled]
    exact ⟨fun _ => unsubscribe_done s2 hw2 key _, fun h => by simp at h,
      fun _ => handler_exit s s2 s2 key acts hw hrun hw2 (fun _ => rfl)⟩
  | signal =>
    refine ⟨fun h => absurd rfl h, ?_, ?_⟩
    · intro _ hr hg
      obtain ⟨ret, hret⟩ := hg
      rw [updatesSelect_signal ⟨st, s2⟩ key q lastUpdated _ encodeErr ret hr hret]
      exact unsubscribe_done _ hwr key _
    · intro hdone
      by_cases hr : (s2.recv (s.Subscribe key).1).1 = .done
      · cases hg : st.getUpdates q lastUpdated with
        | none =>
          have he : s2.recv (s.Subscribe key).1 = (.done, (s2.recv (s.Subscribe key).1).2) :=
            Prod.ext_iff.mpr ⟨hr, rfl⟩
          have hp : (updatesSelect ⟨st, s2⟩ key q lastUpdated (s.Subscribe key).1 .signal
              encodeErr).1 = .panicked := by
            simp only [updatesSelect]
            rw [he]
            simp only [hg]
          rw [hp] at hdone
          exact absurd hdone (by decide)
        | some ret =>
          rw [updatesSelect_signal ⟨st, s2⟩ key q lastUpdated _ encodeErr ret hr hg]
          exact handler_exit s s2 _ key acts hw hrun hwr (fun k => recv_registered s2 _ k)
      · rw [updatesSelect_signal_waits ⟨st, s2⟩ key q lastUpdated _ encodeErr hr] at hdone
        exact absurd hdone hr

/-- Witness for C14: a reader of key `a` in `demoHub` woken by one publish. -/
theorem C14_registration_removed_on_exit_witness :
    demoHub.Reachable ∧
    (demoHub.Subscribe "a").2.run [.publish "a"]
      = (.done, ((demoHub.Subscribe "a").2.Publish "a").2) ∧
    ((WaitEvent.signal ≠ .signal →
      (updatesSelect ⟨demoStore, ((demoHub.Subscribe "a").2.Publish "a").2⟩ "a" 0 0
        (demoHub.Subscribe "a").1 .signal false).1 = .done) ∧
    (WaitEvent.signal = .signal →
      (((demoHub.Subscribe "a").2.Publish "a").2.recv (demoHub.Subscribe "a").1).1 = .done →
      (∃ ret, demoStore.getUpdates 0 0 = some ret) →
      (updatesSelect ⟨demoStore, ((demoHub.Subscribe "a").2.Publish "a").2⟩ "a" 0 0
        (demoHub.Subscribe "a").1 .signal false).1 = .done) ∧
    ((updatesSelect ⟨demoStore, ((demoHub.Subscribe "a").2.Publish "a").2⟩ "a" 0 0
        (demoHub.Subscribe "a").1 .signal false).1 = .done →
      (demoHub.Subscribe "a").1 ∉
        (updatesSelect ⟨demoStore, ((demoHub.Subscribe "a").2.Publish "a").2⟩ "a" 0 0
          (demoHub.Subscribe "a").1 .signal false).2.2.hub.registered "a" ∧
      (∀ k, (updatesSelect ⟨demoStore, ((demoHub.Subscribe "a").2.Publish "a").2⟩ "a" 0 0
          (demoHub.Subscribe "a").1 .signal false).2.2.hub.registered k
        = (((demoHub.Subscribe "a").2.Publish "a").2.registered k).filter
            (fun d => d ≠ (demoHub.Subscribe "a").1)) ∧
      ((∀ a ∈ [Action.publish "a"], a.notifies = true) →
        ∀ k, (updatesSelect ⟨demoStore, ((demoHub.Subscribe "a").2.Publish "a").2⟩ "a" 0 0
          (demoHub.Subscribe "a").1 .signal false).2.2.hub.registered k
          = demoHub.registered k))) :=
  ⟨demoHub_reachable, by decide,
    C14_registration_removed_on_exit demoHub _ "a" [.publish "a"] demoStore 0 0 .signal false
      demoHub_reachable (by decide)⟩

end LongPolling
